import Mathlib

/-!
# Verification of GoMapLLRB (`gomapllrb.go`)

A shallow embedding of the left-leaning red-black tree map from
`gomapllrb.go` (package `gomapllrb`), together with proofs and refutations
of its specified properties.

The Go code is generic over `K constraints.Ordered` with a pluggable
comparator defaulting to `a < b`; the embedding is generic over
`[LinearOrder K]` with the default comparator `· < ·` baked in (no claim
exercises a non-default comparator).  Go `interface{}` values are a type
parameter `V`.  The `uint64` statistics counters are modelled as `Nat` and
the Go `int` length as `Int`; counter overflow is not reachable in any
execution considered by the claims.  Pointer-based node structure is
modelled twice:

* a pure functional tree (`RBNode`) for the algorithmic content — the child
  pointers are ownership pointers, so the functional reading is faithful;
* an explicit heap of addressed nodes (`HeapModel` section) that also
  models the non-owning parent back-references (`up`) and the iterator,
  which cannot be expressed on the pure tree.

Functions whose Go originals recurse after locally rearranging the tree
(`delete`, `deleteMin`, `put` because of the way-down 4-node split) are
defined with an explicit fuel argument; the public wrappers instantiate the
fuel with `size`, which the lemmas show is sufficient.
-/

namespace GoMapLLRB

/-- LLRB234 mirrors the constant of the same name in `gomapllrb.go`:
`true` selects the 2-3-4 variant (the shipped default), `false` the 2-3
variant. -/
def LLRB234 : Bool := true

/-- RBNode mirrors `Node[K]` from `gomapllrb.go` minus the non-owning `up`
back-reference (modelled separately in the heap model): a key (`name`), a
payload (`data`), the color bit (`red`) and the two owned children. -/
inductive RBNode (K : Type) (V : Type) where
  | nil : RBNode K V
  | node (red : Bool) (left : RBNode K V) (name : K) (data : V) (right : RBNode K V) : RBNode K V
deriving DecidableEq, Repr

namespace RBNode

variable {K V : Type}

/-- Left child (`node.left` in Go); `nil` for the empty tree. -/
def left : RBNode K V → RBNode K V
  | .nil => .nil
  | .node _ l _ _ _ => l

/-- Right child (`node.right` in Go); `nil` for the empty tree. -/
def right : RBNode K V → RBNode K V
  | .nil => .nil
  | .node _ _ _ _ r => r

/-- Whether the tree is the nil pointer. -/
def isNil : RBNode K V → Bool
  | .nil => true
  | .node _ _ _ _ _ => false

/-- Number of nodes; used as fuel for the recursions that Go performs on a
locally rearranged tree. -/
def size : RBNode K V → Nat
  | .nil => 0
  | .node _ l _ _ r => size l + size r + 1

/-- Inorder key/value listing of the tree (the specification-side view of
the container's contents). -/
def inorder : RBNode K V → List (K × V)
  | .nil => []
  | .node _ l k v r => inorder l ++ (k, v) :: inorder r

/-- Keys in inorder. -/
def keys (t : RBNode K V) : List K := (inorder t).map Prod.fst

end RBNode

open RBNode

variable {K V : Type}

/-- isRed mirrors `isRed` from `gomapllrb.go`: nil nodes are black. -/
def isRed : RBNode K V → Bool
  | .nil => false
  | .node c _ _ _ _ => c

/-- Toggle the color bit of the root node (`n.red = !n.red` in Go). -/
def toggleColor : RBNode K V → RBNode K V
  | .nil => .nil
  | .node c l k v r => .node (!c) l k v r

/-- flipColor mirrors `flipColor` from `gomapllrb.go`: toggles the color of
the node and of both children.  (Go dereferences both children, so the
children are non-nil at every call site; toggling a nil child is a no-op
here.) -/
def flipColor : RBNode K V → RBNode K V
  | .nil => .nil
  | .node c l k v r => .node (!c) (toggleColor l) k v (toggleColor r)

/-- rotateLeft mirrors `rotateLeft` from `gomapllrb.go`: the right child is
promoted, keeps the replaced node's color, and the demoted node becomes
red.  (Go dereferences `node.right`, which is non-nil at every call site;
other shapes are returned unchanged here.) -/
def rotateLeft : RBNode K V → RBNode K V
  | .node c l k v (.node _ rl rk rv rr) => .node c (.node true l k v rl) rk rv rr
  | t => t

/-- rotateRight mirrors `rotateRight` from `gomapllrb.go`. -/
def rotateRight : RBNode K V → RBNode K V
  | .node c (.node _ ll lk lv lr) k v r => .node c ll lk lv (.node true lr k v r)
  | t => t

/-- Helper replacing the right child, for the sequenced mutations
`node.right = ...` of the Go originals. -/
def setRight (t x : RBNode K V) : RBNode K V :=
  match t with
  | .nil => .nil
  | .node c l k v _ => .node c l k v x

/-- Helper replacing the left child, for the sequenced mutations
`node.left = ...` of the Go originals. -/
def setLeft (t x : RBNode K V) : RBNode K V :=
  match t with
  | .nil => .nil
  | .node c _ k v r => .node c x k v r

/-- Helper replacing the payload, for the in-place update `node.data = data`
in `Tree.put`. -/
def setData (t : RBNode K V) (v : V) : RBNode K V :=
  match t with
  | .nil => .nil
  | .node c l k _ r => .node c l k v r

/-- moveRedLeft mirrors `moveRedLeft` from `gomapllrb.go` (including the
2-3-4-exclusive trailing rotation). -/
def moveRedLeft (t : RBNode K V) : RBNode K V :=
  let t1 := flipColor t
  if isRed t1.right.left then
    let t2 := flipColor (rotateLeft (setRight t1 (rotateRight t1.right)))
    if LLRB234 && isRed t2.right.right then setRight t2 (rotateLeft t2.right) else t2
  else t1

/-- moveRedRight mirrors `moveRedRight` from `gomapllrb.go`. -/
def moveRedRight (t : RBNode K V) : RBNode K V :=
  let t1 := flipColor t
  if isRed t1.left.left then flipColor (rotateRight t1) else t1

/-- fixNode mirrors `fixNode` from `gomapllrb.go`: the fix-on-way-up
normalization shared by `delete` and `deleteMin`. -/
def fixNode (t : RBNode K V) : RBNode K V :=
  let t1 :=
    if isRed t.right then
      rotateLeft (if LLRB234 && isRed t.right.left then setRight t (rotateRight t.right) else t)
    else t
  let t2 := if isRed t1.left && isRed t1.left.left then rotateRight t1 else t1
  if !LLRB234 && isRed t2.left && isRed t2.right then flipColor t2 else t2

/-- findMin mirrors `findMin` from `gomapllrb.go`, returning the minimum
node's key/value. -/
def findMin : RBNode K V → Option (K × V)
  | .nil => none
  | .node _ .nil k v _ => some (k, v)
  | .node _ (.node c l k' v' r) _ _ _ => findMin (.node c l k' v' r)

/-- findMax mirrors `findMax` from `gomapllrb.go`. -/
def findMax : RBNode K V → Option (K × V)
  | .nil => none
  | .node _ _ k v .nil => some (k, v)
  | .node _ _ _ _ (.node c l k' v' r) => findMax (.node c l k' v' r)

section Ordered

variable [LinearOrder K]

/-- putGo is `Tree.put` from `gomapllrb.go` (tree-shape part), with fuel:
the way-down 4-node split recolors the node before the recursive descent,
so the recursion is not structural.  Fuel `size t` suffices (`put` below).
Statistics are threaded by `putRecGo`, proved to compute the same tree.
The key compared against is `nm`: `flipColor` does not change keys. -/
def putGo : Nat → RBNode K V → K → V → RBNode K V
  | _, .nil, k, v => .node true .nil k v .nil
  | 0, t, _, _ => t
  | f + 1, .node c l nm dt r, k, v =>
    -- split 4-nodes on the way down (2-3-4 variant)
    let t1 := if LLRB234 && isRed l && isRed r then flipColor (.node c l nm dt r)
              else .node c l nm dt r
    let t2 :=
      if k < nm then setLeft t1 (putGo f t1.left k v)
      else if nm < k then setRight t1 (putGo f t1.right k v)
      else setData t1 v -- existing key found: update data in place
    -- fix right-leaning reds on the way up
    let t3 := if isRed t2.right && !isRed t2.left then rotateLeft t2 else t2
    -- fix two reds in a row on the way up
    let t4 := if isRed t3.left && isRed t3.left.left then rotateRight t3 else t3
    -- split 4-nodes on the way up (2-3 variant only)
    if !LLRB234 && isRed t4.left && isRed t4.right then flipColor t4 else t4

/-- put is `Tree.put` with sufficient fuel. -/
def put (t : RBNode K V) (k : K) (v : V) : RBNode K V := putGo (size t) t k v

/-- Blacken the root: the `tree.root.red = false` step of the public
`Tree.Put` and `Tree.Delete` methods. -/
def blacken : RBNode K V → RBNode K V
  | .nil => .nil
  | .node _ l k v r => .node false l k v r

/-- putRoot is the public `Tree.Put`: insert, then blacken the root. -/
def putRoot (t : RBNode K V) (k : K) (v : V) : RBNode K V := blacken (put t k v)

/-- deleteMinGo is `deleteMin` from `gomapllrb.go`, with fuel (the
recursion follows a `moveRedLeft` rearrangement).  Go's version is only
called on non-nil trees and returns the removed minimum node, used by the
caller for its key and payload; the nil case here returns `none`. -/
def deleteMinGo : Nat → RBNode K V → RBNode K V × Option (K × V)
  | _, .nil => (.nil, none)
  | 0, t => (t, none)
  | f + 1, .node c l nm dt r =>
    match l with
    | .nil => (.nil, some (nm, dt)) -- 3-nodes are left-leaning, so this is a leaf
    | .node _ _ _ _ _ =>
      let t1 := if !isRed l && !isRed l.left then moveRedLeft (.node c l nm dt r)
                else .node c l nm dt r
      let p := deleteMinGo f t1.left
      (fixNode (setLeft t1 p.1), p.2)

/-- deleteMin is `deleteMin` with sufficient fuel. -/
def deleteMin (t : RBNode K V) : RBNode K V × Option (K × V) := deleteMinGo (size t) t

/-- delGo is `Tree.delete` from `gomapllrb.go` (tree-shape part; statistics
threaded by `delRecGo`), with fuel.  The returned flag mirrors Go's
`deleted` variable exactly: in particular the "found in the middle" branch
of the Go code never sets it, so the flag stays `false` there even though a
key is removed.  The two `.nil` fallback rows marked unreachable
correspond to states the Go control flow cannot reach (`t1` and `t2` are
built from a non-nil node). -/
def delGo : Nat → RBNode K V → K → RBNode K V × Bool
  | _, .nil, _ => (.nil, false)
  | 0, t, _ => (t, false)
  | f + 1, .node c l nm dt r, k =>
    if k < nm then
      -- move red left, then keep going down to the left
      let t1 := if !l.isNil && (!isRed l && !isRed l.left) then moveRedLeft (.node c l nm dt r)
                else .node c l nm dt r
      let p := delGo f t1.left k
      (fixNode (setLeft t1 p.1), p.2)
    else
      let t1 := if isRed l then rotateRight (.node c l nm dt r) else .node c l nm dt r
      match t1 with
      | .nil => (.nil, false) -- unreachable
      | .node c1 l1 nm1 dt1 r1 =>
        if r1.isNil && !(decide (nm1 < k)) then
          (.nil, true) -- remove if equal at the bottom
        else
          let t2 := if !r1.isNil && (!isRed r1 && !isRed r1.left)
                    then moveRedRight (.node c1 l1 nm1 dt1 r1)
                    else .node c1 l1 nm1 dt1 r1
          match t2 with
          | .nil => (.nil, false) -- unreachable
          | .node c2 l2 nm2 dt2 r2 =>
            if !(decide (nm2 < k)) then
              -- found in the middle: delete the min of the right subtree
              -- and copy it here (Go leaves `deleted` false: see delGo doc)
              match deleteMin r2 with
              | (r', some m) => (fixNode (.node c2 l2 m.1 m.2 r'), false)
              | (_, none) => (.nil, false) -- unreachable (r2 is non-nil here)
            else
              -- keep going down to the right
              let p := delGo f r2 k
              (fixNode (.node c2 l2 nm2 dt2 p.1), p.2)

/-- delete is `Tree.delete` with sufficient fuel. -/
def delete (t : RBNode K V) (k : K) : RBNode K V × Bool := delGo (size t) t k

/-- deleteRoot is the public `Tree.Delete`: delete, then blacken the
root if non-nil (blackening nil is a no-op). -/
def deleteRoot (t : RBNode K V) (k : K) : RBNode K V × Bool :=
  let p := delete t k
  (blacken p.1, p.2)

/-- getNode is `Tree.get` from `gomapllrb.go` (the iterative binary
search), returning the found node's key and payload. -/
def getNode : RBNode K V → K → Option (K × V)
  | .nil, _ => none
  | .node _ l nm dt r, k =>
    if k < nm then getNode l k
    else if nm < k then getNode r k
    else some (nm, dt)

/-- bigger is `Tree.bigger` from `gomapllrb.go`: the nearest key strictly
bigger than `k` (or equal, when `eq` is set), with fallback to the best
candidate on the path. -/
def bigger : RBNode K V → K → Bool → Option (K × V)
  | .nil, _, _ => none
  | .node _ l nm dt r, k, eq =>
    if k < nm then
      match bigger l k eq with
      | none => some (nm, dt)
      | some x => some x
    else if nm < k then bigger r k eq
    else if !eq then bigger r k eq -- match found, continue to the right
    else some (nm, dt)

/-- smaller is `Tree.smaller` from `gomapllrb.go`. -/
def smaller : RBNode K V → K → Bool → Option (K × V)
  | .nil, _, _ => none
  | .node _ l nm dt r, k, eq =>
    if k < nm then smaller l k eq
    else if nm < k then
      match smaller r k eq with
      | none => some (nm, dt)
      | some x => some x
    else if !eq then smaller l k eq -- match found, continue to the left
    else some (nm, dt)

end Ordered

/-- Violation categories reported by the integrity checkers (`fmt.Errorf`
messages in Go, one per property). -/
inductive Violation where
  | root : Violation
  | red : Violation
  | black : Violation
  | llrb : Violation
deriving DecidableEq, Repr

/-- checkRoot mirrors `checkRoot`: the root must not be red. -/
def checkRoot (t : RBNode K V) : Option Violation :=
  if isRed t then some .root else none

/-- checkRed mirrors `checkRed`: no red node has a red child (right
subtree checked first, as in Go). -/
def checkRed : RBNode K V → Option Violation
  | .nil => none
  | .node c l _ _ r =>
    if (c && (isRed r || isRed l) : Bool) then some .red
    else match checkRed r with
      | some e => some e
      | none => checkRed l

/-- checkBlack mirrors `checkBlack`: `some n` plays the role of the
out-parameter `length` (the black depth), `none` the error return. -/
def checkBlack : RBNode K V → Option Nat
  | .nil => some 1
  | .node c l _ _ r =>
    match checkBlack r with
    | none => none
    | some rightLength =>
      match checkBlack l with
      | none => none
      | some leftLength =>
        if rightLength ≠ leftLength then none
        else if !c then some (rightLength + 1) else some rightLength

/-- checkLLRB mirrors `checkLLRB`: no red right child with a non-red left
child. -/
def checkLLRB : RBNode K V → Option Violation
  | .nil => none
  | .node _ l _ _ r =>
    if (isRed r && !isRed l : Bool) then some .llrb
    else match checkLLRB r with
      | some e => some e
      | none => checkLLRB l

/-- check mirrors `Tree.Check`: the four validators in order, first
violation wins. -/
def check (t : RBNode K V) : Option Violation :=
  match checkRoot t with
  | some e => some e
  | none =>
    match checkRed t with
    | some e => some e
    | none =>
      match checkBlack t with
      | none => some .black
      | some _ => checkLLRB t

/-!
## Heap model

The pure tree above cannot express the non-owning parent back-reference
`up` that `Iter.Next` walks, nor the aliasing effects of the Go rotations
on it.  This section models the node store explicitly: a node is a record
of fields exactly as in `Node[K]`, a pointer is an `Option Nat` index into
an append-only allocation list, and each Go pointer assignment becomes one
store update, in the original order.  Recursions carry fuel; the wrappers
pass fuel that the concrete evaluations show sufficient (a failed
dereference or exhausted fuel leaves the heap unchanged, which never
happens on the runs appearing in the theorems).
-/

/-- HNode mirrors `Node[K]` from `gomapllrb.go` with all pointer fields,
including the non-owning `up` back-reference. -/
structure HNode (K : Type) (V : Type) where
  name : K
  data : V
  red : Bool
  up : Option Nat
  left : Option Nat
  right : Option Nat
deriving DecidableEq, Repr

/-- A heap of allocated nodes; the address of a node is its index and
allocation appends. -/
abbrev Heap (K V : Type) := List (HNode K V)

namespace HNode

variable {K V : Type}

/-- Field update for `up`. -/
def withUp (m : HNode K V) (u : Option Nat) : HNode K V :=
  ⟨m.name, m.data, m.red, u, m.left, m.right⟩

/-- Field update for `left`. -/
def withLeft (m : HNode K V) (l : Option Nat) : HNode K V :=
  ⟨m.name, m.data, m.red, m.up, l, m.right⟩

/-- Field update for `right`. -/
def withRight (m : HNode K V) (r : Option Nat) : HNode K V :=
  ⟨m.name, m.data, m.red, m.up, m.left, r⟩

/-- Field update for `red`. -/
def withRed (m : HNode K V) (c : Bool) : HNode K V :=
  ⟨m.name, m.data, c, m.up, m.left, m.right⟩

/-- Field update for `name` and `data` (the copy in `Tree.delete`'s
"found in the middle" branch). -/
def withNameData (m : HNode K V) (k : K) (v : V) : HNode K V :=
  ⟨k, v, m.red, m.up, m.left, m.right⟩

end HNode

section HeapModel

variable [Inhabited K] [Inhabited V]

/-- Dereference an address (out-of-range reads yield a dummy node; every
read in the runs below is in range). -/
def hget (h : Heap K V) (a : Nat) : HNode K V :=
  h.getD a ⟨default, default, false, none, none, none⟩

/-- Store to an address (out-of-range stores are dropped, as for
`List.set`). -/
def hmod (h : Heap K V) (a : Nat) (f : HNode K V → HNode K V) : Heap K V :=
  h.set a (f (hget h a))

/-- isRed on the heap: nil pointers are black. -/
def isRedH (h : Heap K V) : Option Nat → Bool
  | none => false
  | some a => (hget h a).red

/-- flipColor on the heap. -/
def flipColorH (h : Heap K V) (x : Nat) : Heap K V :=
  let h := hmod h x (fun m => m.withRed (!m.red))
  let h := match (hget h x).left with
    | none => h
    | some l => hmod h l (fun m => m.withRed (!m.red))
  match (hget h x).right with
  | none => h
  | some r => hmod h r (fun m => m.withRed (!m.red))

/-- rotateLeft on the heap, performing the five pointer/color assignments
of the Go original in order; returns the promoted node's address. -/
def rotateLeftH (h : Heap K V) (x : Nat) : Heap K V × Nat :=
  match (hget h x).right with
  | none => (h, x) -- unreachable: Go dereferences node.right at once
  | some n =>
    let h := hmod h n (fun m => m.withUp (hget h x).up) -- n.up = node.up
    let h := hmod h x (fun m => m.withUp (some n))      -- node.up = n
    let h := hmod h x (fun m => m.withRight (hget h n).left) -- node.right = n.left
    let h := hmod h n (fun m => m.withLeft (some x))    -- n.left = node
    let h := hmod h n (fun m => m.withRed (hget h x).red) -- n.red = n.left.red
    let h := hmod h x (fun m => m.withRed true)         -- n.left.red = true
    (h, n)

/-- rotateRight on the heap. -/
def rotateRightH (h : Heap K V) (x : Nat) : Heap K V × Nat :=
  match (hget h x).left with
  | none => (h, x) -- unreachable
  | some n =>
    let h := hmod h n (fun m => m.withUp (hget h x).up) -- n.up = node.up
    let h := hmod h x (fun m => m.withUp (some n))      -- node.up = n
    let h := hmod h x (fun m => m.withLeft (hget h n).right) -- node.left = n.right
    let h := hmod h n (fun m => m.withRight (some x))   -- n.right = node
    let h := hmod h n (fun m => m.withRed (hget h x).red) -- n.red = n.right.red
    let h := hmod h x (fun m => m.withRed true)         -- n.right.red = true
    (h, n)

/-- moveRedLeft on the heap. -/
def moveRedLeftH (h : Heap K V) (x : Nat) : Heap K V × Nat :=
  let h := flipColorH h x
  if isRedH h (match (hget h x).right with | none => none | some r => (hget h r).left) then
    let h := match (hget h x).right with
      | none => h
      | some r =>
        let p := rotateRightH h r
        hmod p.1 x (fun m => m.withRight (some p.2)) -- node.right = rotateRight(node.right)
    let p := rotateLeftH h x
    let h := flipColorH p.1 p.2
    let x := p.2
    if LLRB234 && isRedH h (match (hget h x).right with | none => none | some r => (hget h r).right) then
      match (hget h x).right with
      | none => (h, x)
      | some r =>
        let q := rotateLeftH h r
        (hmod q.1 x (fun m => m.withRight (some q.2)), x) -- node.right = rotateLeft(node.right)
    else (h, x)
  else (h, x)

/-- moveRedRight on the heap. -/
def moveRedRightH (h : Heap K V) (x : Nat) : Heap K V × Nat :=
  let h := flipColorH h x
  if isRedH h (match (hget h x).left with | none => none | some l => (hget h l).left) then
    let p := rotateRightH h x
    (flipColorH p.1 p.2, p.2)
  else (h, x)

/-- fixNode on the heap. -/
def fixNodeH (h : Heap K V) (x : Nat) : Heap K V × Nat :=
  let p :=
    if isRedH h (hget h x).right then
      let h :=
        if LLRB234 && isRedH h (match (hget h x).right with | none => none | some r => (hget h r).left) then
          match (hget h x).right with
          | none => h
          | some r =>
            let q := rotateRightH h r
            hmod q.1 x (fun m => m.withRight (some q.2))
        else h
      rotateLeftH h x
    else (h, x)
  let h := p.1
  let x := p.2
  let q :=
    if isRedH h (hget h x).left &&
       isRedH h (match (hget h x).left with | none => none | some l => (hget h l).left) then
      rotateRightH h x
    else (h, x)
  -- split 4-nodes (2-3 variant only; dead under LLRB234 = true)
  if !LLRB234 && isRedH q.1 (hget q.1 q.2).left && isRedH q.1 (hget q.1 q.2).right then
    (flipColorH q.1 q.2, q.2)
  else q

/-- findMin on the heap (the descend-left loop, as fuel recursion). -/
def findMinH : Nat → Heap K V → Option Nat → Option Nat
  | _, _, none => none
  | 0, _, some x => some x
  | f + 1, h, some x =>
    match (hget h x).left with
    | none => some x
    | some l => findMinH f h (some l)

/-- deleteMin on the heap.  Returns (new subtree root, removed min node's
address). -/
def deleteMinH : Nat → Heap K V → Nat → Heap K V × Option Nat × Option Nat
  | 0, h, x => (h, some x, none)
  | f + 1, h, x =>
    match (hget h x).left with
    | none => (h, none, some x) -- leaf: unlink it
    | some l =>
      let p :=
        if !isRedH h (some l) && !isRedH h (hget h l).left then moveRedLeftH h x else (h, x)
      let h := p.1
      let x := p.2
      match deleteMinH f h (((hget h x).left).getD x) with
      | (h, l', mn) =>
        let h := hmod h x (fun m => m.withLeft l') -- node.left = deleteMin(node.left)
        let q := fixNodeH h x
        (q.1, some q.2, mn)

section HOrdered

variable [LinearOrder K]

/-- put on the heap, mirroring `Tree.put` including the
`node.left.up = node` / `node.right.up = node` assignments after the
recursive calls.  Returns the new subtree root's address; a new node is
allocated by appending. -/
def putH : Nat → Heap K V → Option Nat → K → V → Heap K V × Nat
  | _, h, none, k, v => (h ++ [⟨k, v, true, none, none, none⟩], h.length)
  | 0, h, some x, _, _ => (h, x)
  | f + 1, h, some x, k, v =>
    -- split 4-nodes on the way down
    let h := if LLRB234 && isRedH h (hget h x).left && isRedH h (hget h x).right
             then flipColorH h x else h
    let h :=
      if k < (hget h x).name then
        let p := putH f h (hget h x).left k v
        let h := hmod p.1 x (fun m => m.withLeft (some p.2)) -- node.left = put(node.left, ...)
        hmod h p.2 (fun m => m.withUp (some x))              -- node.left.up = node
      else if (hget h x).name < k then
        let p := putH f h (hget h x).right k v
        let h := hmod p.1 x (fun m => m.withRight (some p.2)) -- node.right = put(node.right, ...)
        hmod h p.2 (fun m => m.withUp (some x))               -- node.right.up = node
      else hmod h x (fun m => m.withNameData m.name v)        -- node.data = data
    -- fix right-leaning reds on the way up
    let p := if isRedH h (hget h x).right && !isRedH h (hget h x).left
             then rotateLeftH h x else (h, x)
    -- fix two reds in a row on the way up
    if isRedH p.1 (hget p.1 p.2).left &&
       isRedH p.1 (match (hget p.1 p.2).left with | none => none | some l => (hget p.1 l).left) then
      rotateRightH p.1 p.2
    else p

/-- delete on the heap, mirroring `Tree.delete`.  Unlike `put`, the Go
code never re-points `up` after the recursive calls here.  Returns the new
subtree root and the `deleted` flag. -/
def delH : Nat → Heap K V → Option Nat → K → Heap K V × Option Nat × Bool
  | _, h, none, _ => (h, none, false)
  | 0, h, some x, _ => (h, some x, false)
  | f + 1, h, some x, k =>
    if k < (hget h x).name then
      let p :=
        if ((hget h x).left).isSome && !isRedH h (hget h x).left &&
           !isRedH h (match (hget h x).left with | none => none | some l => (hget h l).left) then
          moveRedLeftH h x
        else (h, x)
      let h := p.1
      let x := p.2
      match delH f h (hget h x).left k with
      | (h, l', d) =>
        let h := hmod h x (fun m => m.withLeft l') -- node.left, deleted = delete(node.left, ...)
        let q := fixNodeH h x
        (q.1, some q.2, d)
    else
      let p := if isRedH h (hget h x).left then rotateRightH h x else (h, x)
      let h := p.1
      let x := p.2
      if ((hget h x).right).isNone && !(decide ((hget h x).name < k)) then
        (h, none, true) -- remove if equal at the bottom
      else
        let p :=
          if ((hget h x).right).isSome && !isRedH h (hget h x).right &&
             !isRedH h (match (hget h x).right with | none => none | some r => (hget h r).left) then
            moveRedRightH h x
          else (h, x)
        let h := p.1
        let x := p.2
        if !(decide ((hget h x).name < k)) then
          -- found in the middle: delete the min of the right subtree and copy it here
          match deleteMinH (h.length + 1) h (((hget h x).right).getD x) with
          | (h, r', mn) =>
            let h := hmod h x (fun m => m.withRight r')
            let h := match mn with
              | none => h -- unreachable
              | some a => hmod h x (fun m => m.withNameData (hget h a).name (hget h a).data)
            let q := fixNodeH h x
            (q.1, some q.2, false) -- Go leaves `deleted` false on this path
        else
          match delH f h (hget h x).right k with
          | (h, r', d) =>
            let h := hmod h x (fun m => m.withRight r')
            let q := fixNodeH h x
            (q.1, some q.2, d)

/-- bigger on the heap (fuel recursion; returns a node address). -/
def biggerH : Nat → Heap K V → Option Nat → K → Bool → Option Nat
  | _, _, none, _, _ => none
  | 0, _, some x, _, _ => some x
  | f + 1, h, some x, k, eq =>
    if k < (hget h x).name then
      match biggerH f h (hget h x).left k eq with
      | none => some x
      | some y => some y
    else if (hget h x).name < k then biggerH f h (hget h x).right k eq
    else if !eq then biggerH f h (hget h x).right k eq
    else some x

/-- HTree packages the heap together with the root pointer (the `Tree`
struct's `root` field; `len` and the statistics are covered by the pure
instrumented model). -/
structure HTree (K V : Type) where
  heap : Heap K V
  root : Option Nat

/-- hput is the public `Tree.Put` on the heap model. -/
def hput (t : HTree K V) (k : K) (v : V) : HTree K V :=
  let p := putH (t.heap.length + 1) t.heap t.root k v
  ⟨hmod p.1 p.2 (fun m => m.withRed false), some p.2⟩ -- tree.root.red = false

/-- hdelete is the public `Tree.Delete` on the heap model. -/
def hdelete (t : HTree K V) (k : K) : HTree K V × Bool :=
  match delH (t.heap.length + 1) t.heap t.root k with
  | (h, r, d) =>
    match r with
    | none => (⟨h, none⟩, d)
    | some x => (⟨hmod h x (fun m => m.withRed false), some x⟩, d)

/-- IterH mirrors the `Iter[K]` struct (`endKey` stands for the Go field
`end`, a reserved word here). -/
structure IterH (K : Type) where
  cur : Option Nat
  last : Option Nat
  endKey : K
  span : Bool
  done : Bool

/-- hiter mirrors `Tree.Iter`: start at the minimum. -/
def hiter (t : HTree K V) : IterH K :=
  let c := findMinH (t.heap.length + 1) t.heap t.root
  ⟨c, none, default, false, c.isNone⟩

/-- hrange mirrors `Tree.Range`: start at the smallest key not below
`start`, with `endKey` bounding the span.  Note no bound check is applied
to the initial cursor. -/
def hrange (t : HTree K V) (start stop : K) : IterH K :=
  let c := biggerH (t.heap.length + 1) t.heap t.root start true
  ⟨c, none, stop, true, c.isNone⟩

/-- Up-walk loop of `Iter.Next` (`for it.cur != nil && it.cur.name < it.last.name`),
as fuel recursion. -/
def upWalk : Nat → Heap K V → Option Nat → K → Option Nat
  | 0, _, c, _ => c
  | f + 1, h, c, lastName =>
    match c with
    | none => none
    | some x => if (hget h x).name < lastName then upWalk f h (hget h x).up lastName else some x

/-- hnext mirrors `Iter.Next`: returns the updated iterator and the
reported Bool. -/
def hnext (t : HTree K V) (it : IterH K) : IterH K × Bool :=
  if it.done then (it, false)
  else
    match it.cur with
    | none => (it, false) -- unreachable: cur is non-nil whenever done is false
    | some c =>
      let lastName := (hget t.heap c).name
      let cur1 := biggerH (t.heap.length + 1) t.heap (hget t.heap c).right lastName false
      let cur2 :=
        match cur1 with
        | some y => some y
        | none =>
          let w := upWalk (t.heap.length + 1) t.heap (hget t.heap c).up lastName
          match w with
          | none => none
          | some y => biggerH (t.heap.length + 1) t.heap (some y) lastName false
      let done2 := cur2.isNone
      let done3 := done2 || (it.span && decide (it.endKey < (hget t.heap (cur2.getD c)).name))
      (⟨cur2, some c, it.endKey, it.span, done3⟩, true)

/-- hkey mirrors `Iter.Key`. -/
def hkey (t : HTree K V) (it : IterH K) : K :=
  match it.last with
  | none => default
  | some x => (hget t.heap x).name

/-- Collect the keys yielded by repeatedly calling `Next`/`Key`, up to
`fuel` steps (the Go caller loops `for it.Next()`). -/
def hcollect : Nat → HTree K V → IterH K → List K
  | 0, _, _ => []
  | f + 1, t, it =>
    match hnext t it with
    | (it', true) => hkey t it' :: hcollect f t it'
    | (_, false) => []

/-- Reconstruct the pure tree reachable from an address by following child
pointers (for stating which keys are present in a heap tree). -/
def readTree : Nat → Heap K V → Option Nat → RBNode K V
  | _, _, none => .nil
  | 0, _, some _ => .nil
  | f + 1, h, some x =>
    .node (hget h x).red (readTree f h (hget h x).left) (hget h x).name (hget h x).data
      (readTree f h (hget h x).right)

/-- Parent-pointer consistency: every reachable node's children point back
to it through `up` (the property C10 asserts after every mutation). -/
def upOk : Nat → Heap K V → Option Nat → Bool
  | _, _, none => true
  | 0, _, some _ => false
  | f + 1, h, some x =>
    (match (hget h x).left with
     | none => true
     | some c => decide ((hget h c).up = some x)) &&
    (match (hget h x).right with
     | none => true
     | some c => decide ((hget h c).up = some x)) &&
    upOk f h (hget h x).left && upOk f h (hget h x).right

end HOrdered

end HeapModel

/-!
## Semantic predicates and model functions
-/

/-- All expresses that a predicate holds of every key in a tree. -/
def All (p : K → Prop) : RBNode K V → Prop
  | .nil => True
  | .node _ l k _ r => All p l ∧ p k ∧ All p r

/-- Decidability of `All`, so witnesses can be checked by evaluation. -/
instance instDecidableAll (p : K → Prop) [DecidablePred p] :
    (t : RBNode K V) → Decidable (All p t)
  | .nil => .isTrue trivial
  | .node _ l _ _ r =>
    have : Decidable (All p l) := instDecidableAll p l
    have : Decidable (All p r) := instDecidableAll p r
    inferInstanceAs (Decidable (_ ∧ _ ∧ _))

section OrderedDefs

variable [LinearOrder K]

/-- Ordered is the binary-search-tree property under the default
comparator: all keys in the left subtree are smaller, all keys in the
right subtree larger, recursively.  Every tree the container builds is
ordered (proved below); the search-family claims assume it. -/
def Ordered : RBNode K V → Prop
  | .nil => True
  | .node _ l k _ r => Ordered l ∧ Ordered r ∧ All (· < k) l ∧ All (k < ·) r

instance instDecidableOrdered : (t : RBNode K V) → Decidable (Ordered t)
  | .nil => .isTrue trivial
  | .node _ l _ _ r =>
    have : Decidable (Ordered l) := instDecidableOrdered l
    have : Decidable (Ordered r) := instDecidableOrdered r
    inferInstanceAs (Decidable (_ ∧ _ ∧ _ ∧ _))

end OrderedDefs

/-!
## Statistics and the instrumented operations

The Go methods update `tree.len`, `tree.stats` and the process-global
`pstats` while rebalancing.  `putRecGo`/`delRecGo`/`deleteMinRecGo` mirror
the Go bodies with that state threaded explicitly; they are proved to
compute the same trees as the pure functions above.  The `Sum` fields of
the Go `Stats` struct and the `Perf` copy are computed by the `Stats()`
getter, mirrored by `statsFn`.
-/

/-- StatsC mirrors the persistent counter fields of `Stats` (Go `uint64`,
modelled as `Nat`; see the header note on overflow). -/
structure StatsC where
  putNew : Nat
  putUpdate : Nat
  deleteDeleted : Nat
  deleteNotFound : Nat
  getFound : Nat
  getNotFound : Nat
deriving DecidableEq, Repr

/-- PerfStats mirrors the global `pstats` variable: flip and rotation
counters shared by every tree in the process. -/
structure PerfStats where
  flip : Nat
  rotateLeft : Nat
  rotateRight : Nat
deriving DecidableEq, Repr

/-- Zeroed counters (Go zero value, also set by `ResetStats`). -/
def StatsC.zero : StatsC := ⟨0, 0, 0, 0, 0, 0⟩

/-- Zeroed perf counters. -/
def PerfStats.zero : PerfStats := ⟨0, 0, 0⟩

/-- StatsView mirrors the full `Stats` record as returned by
`Tree.Stats()`: the persistent counters, the computed `Sum` fields and
the copied-in global perf counters with their computed `Rotate.Sum`. -/
structure StatsView where
  putSum : Nat
  putNew : Nat
  putUpdate : Nat
  deleteSum : Nat
  deleteDeleted : Nat
  deleteNotFound : Nat
  getSum : Nat
  getFound : Nat
  getNotFound : Nat
  perfFlip : Nat
  perfRotateSum : Nat
  perfRotateLeft : Nat
  perfRotateRight : Nat
deriving DecidableEq, Repr

/-- statsFn mirrors `Tree.Stats()`: fills in the sums and copies the
GLOBAL `pstats` into the returned record. -/
def statsFn (s : StatsC) (pstats : PerfStats) : StatsView :=
  ⟨s.putNew + s.putUpdate, s.putNew, s.putUpdate,
   s.deleteDeleted + s.deleteNotFound, s.deleteDeleted, s.deleteNotFound,
   s.getFound + s.getNotFound, s.getFound, s.getNotFound,
   pstats.flip, pstats.rotateLeft + pstats.rotateRight,
   pstats.rotateLeft, pstats.rotateRight⟩

/-- flipColor with its `pstats.Flip++`. -/
def flipColorP (t : RBNode K V) (p : PerfStats) : RBNode K V × PerfStats :=
  (flipColor t, ⟨p.flip + 1, p.rotateLeft, p.rotateRight⟩)

/-- rotateLeft with its `pstats.Rotate.Left++`. -/
def rotateLeftP (t : RBNode K V) (p : PerfStats) : RBNode K V × PerfStats :=
  (rotateLeft t, ⟨p.flip, p.rotateLeft + 1, p.rotateRight⟩)

/-- rotateRight with its `pstats.Rotate.Right++`. -/
def rotateRightP (t : RBNode K V) (p : PerfStats) : RBNode K V × PerfStats :=
  (rotateRight t, ⟨p.flip, p.rotateLeft, p.rotateRight + 1⟩)

/-- moveRedLeft, instrumented. -/
def moveRedLeftP (t : RBNode K V) (p : PerfStats) : RBNode K V × PerfStats :=
  let q1 := flipColorP t p
  let t1 := q1.1
  if isRed t1.right.left then
    let q2 := rotateRightP t1.right q1.2
    let q3 := rotateLeftP (setRight t1 q2.1) q2.2
    let q4 := flipColorP q3.1 q3.2
    let t2 := q4.1
    if LLRB234 && isRed t2.right.right then
      let q5 := rotateLeftP t2.right q4.2
      (setRight t2 q5.1, q5.2)
    else q4
  else q1

/-- moveRedRight, instrumented. -/
def moveRedRightP (t : RBNode K V) (p : PerfStats) : RBNode K V × PerfStats :=
  let q1 := flipColorP t p
  let t1 := q1.1
  if isRed t1.left.left then
    let q2 := rotateRightP t1 q1.2
    flipColorP q2.1 q2.2
  else q1

/-- fixNode, instrumented. -/
def fixNodeP (t : RBNode K V) (p : PerfStats) : RBNode K V × PerfStats :=
  let q1 :=
    if isRed t.right then
      let q0 :=
        if LLRB234 && isRed t.right.left then
          let qr := rotateRightP t.right p
          (setRight t qr.1, qr.2)
        else (t, p)
      rotateLeftP q0.1 q0.2
    else (t, p)
  let q2 :=
    if isRed q1.1.left && isRed q1.1.left.left then rotateRightP q1.1 q1.2 else q1
  if !LLRB234 && isRed q2.1.left && isRed q2.1.right then flipColorP q2.1 q2.2 else q2

section InstrumentedOps

variable [LinearOrder K]

/-- putRecGo is `Tree.put` with `tree.stats`, `tree.len` and the global
`pstats` threaded; computes the same tree as `putGo` (proved below). -/
def putRecGo : Nat → RBNode K V → K → V → StatsC → Int → PerfStats →
    RBNode K V × StatsC × Int × PerfStats
  | _, .nil, k, v, s, n, p =>
    (.node true .nil k v .nil,
     ⟨s.putNew + 1, s.putUpdate, s.deleteDeleted, s.deleteNotFound, s.getFound, s.getNotFound⟩,
     n + 1, p)
  | 0, t, _, _, s, n, p => (t, s, n, p)
  | f + 1, .node c l nm dt r, k, v, s, n, p =>
    let q1 := if LLRB234 && isRed l && isRed r then flipColorP (.node c l nm dt r) p
              else (.node c l nm dt r, p)
    let t1 := q1.1
    let q2 :=
      if k < nm then
        match putRecGo f t1.left k v s n q1.2 with
        | (l2, s2, n2, p2) => (setLeft t1 l2, s2, n2, p2)
      else if nm < k then
        match putRecGo f t1.right k v s n q1.2 with
        | (r2, s2, n2, p2) => (setRight t1 r2, s2, n2, p2)
      else
        (setData t1 v,
         ⟨s.putNew, s.putUpdate + 1, s.deleteDeleted, s.deleteNotFound, s.getFound, s.getNotFound⟩,
         n, q1.2)
    let q3 := if isRed q2.1.right && !isRed q2.1.left then
                match rotateLeftP q2.1 q2.2.2.2 with
                | (t3, p3) => (t3, q2.2.1, q2.2.2.1, p3)
              else q2
    let q4 := if isRed q3.1.left && isRed q3.1.left.left then
                match rotateRightP q3.1 q3.2.2.2 with
                | (t4, p4) => (t4, q3.2.1, q3.2.2.1, p4)
              else q3
    if !LLRB234 && isRed q4.1.left && isRed q4.1.right then
      match flipColorP q4.1 q4.2.2.2 with
      | (t5, p5) => (t5, q4.2.1, q4.2.2.1, p5)
    else q4

/-- deleteMinRecGo is `deleteMin` with the global `pstats` threaded
(`deleteMin` touches no other counters). -/
def deleteMinRecGo : Nat → RBNode K V → PerfStats →
    (RBNode K V × Option (K × V)) × PerfStats
  | _, .nil, p => ((.nil, none), p)
  | 0, t, p => ((t, none), p)
  | f + 1, .node c l nm dt r, p =>
    match l with
    | .nil => ((.nil, some (nm, dt)), p)
    | .node _ _ _ _ _ =>
      let q1 := if !isRed l && !isRed l.left then moveRedLeftP (.node c l nm dt r) p
                else (.node c l nm dt r, p)
      let t1 := q1.1
      match deleteMinRecGo f t1.left q1.2 with
      | ((l2, mn), p2) =>
        match fixNodeP (setLeft t1 l2) p2 with
        | (t3, p3) => ((t3, mn), p3)

/-- delRecGo is `Tree.delete` with `tree.stats`, `tree.len` and the
global `pstats` threaded; computes the same tree and flag as `delGo`
(proved below). -/
def delRecGo : Nat → RBNode K V → K → StatsC → Int → PerfStats →
    (RBNode K V × Bool) × StatsC × Int × PerfStats
  | _, .nil, _, s, n, p =>
    ((.nil, false),
     ⟨s.putNew, s.putUpdate, s.deleteDeleted, s.deleteNotFound + 1, s.getFound, s.getNotFound⟩,
     n, p)
  | 0, t, _, s, n, p => ((t, false), s, n, p)
  | f + 1, .node c l nm dt r, k, s, n, p =>
    if k < nm then
      let q1 := if !l.isNil && (!isRed l && !isRed l.left) then
                  moveRedLeftP (.node c l nm dt r) p
                else (.node c l nm dt r, p)
      let t1 := q1.1
      match delRecGo f t1.left k s n q1.2 with
      | ((l2, d), s2, n2, p2) =>
        match fixNodeP (setLeft t1 l2) p2 with
        | (t3, p3) => ((t3, d), s2, n2, p3)
    else
      let q1 := if isRed l then rotateRightP (.node c l nm dt r) p
                else (.node c l nm dt r, p)
      match q1.1 with
      | .nil => ((.nil, false), s, n, q1.2) -- unreachable
      | .node c1 l1 nm1 dt1 r1 =>
        if r1.isNil && !(decide (nm1 < k)) then
          ((.nil, true),
           ⟨s.putNew, s.putUpdate, s.deleteDeleted + 1, s.deleteNotFound, s.getFound, s.getNotFound⟩,
           n - 1, q1.2)
        else
          let q2 := if !r1.isNil && (!isRed r1 && !isRed r1.left) then
                      moveRedRightP (.node c1 l1 nm1 dt1 r1) q1.2
                    else (.node c1 l1 nm1 dt1 r1, q1.2)
          match q2.1 with
          | .nil => ((.nil, false), s, n, q2.2) -- unreachable
          | .node c2 l2 nm2 dt2 r2 =>
            if !(decide (nm2 < k)) then
              match deleteMinRecGo (size r2) r2 q2.2 with
              | ((r3, some m), p3) =>
                match fixNodeP (.node c2 l2 m.1 m.2 r3) p3 with
                | (t4, p4) =>
                  ((t4, false),
                   ⟨s.putNew, s.putUpdate, s.deleteDeleted + 1, s.deleteNotFound, s.getFound,
                    s.getNotFound⟩,
                   n - 1, p4)
              | ((_, none), p3) => ((.nil, false), s, n, p3) -- unreachable
            else
              match delRecGo f r2 k s n q2.2 with
              | ((r3, d), s3, n3, p3) =>
                match fixNodeP (.node c2 l2 nm2 dt2 r3) p3 with
                | (t4, p4) => ((t4, d), s3, n3, p4)

/-- getRec is `Tree.get` with the `Get` counters. -/
def getRec : RBNode K V → K → StatsC → Option (K × V) × StatsC
  | .nil, _, s =>
    (none, ⟨s.putNew, s.putUpdate, s.deleteDeleted, s.deleteNotFound, s.getFound,
            s.getNotFound + 1⟩)
  | .node _ l nm dt r, k, s =>
    if k < nm then getRec l k s
    else if nm < k then getRec r k s
    else (some (nm, dt),
          ⟨s.putNew, s.putUpdate, s.deleteDeleted, s.deleteNotFound, s.getFound + 1,
           s.getNotFound⟩)

/-- TreeMem bundles the mutable per-tree state of the `Tree` struct that
the claims observe: the root, `len` and `stats` (the comparator is the
default and the mutex is concurrency-only).  The global `pstats` is
deliberately NOT a field: it is process state shared by all trees. -/
structure TreeMem (K V : Type) where
  root : RBNode K V
  len : Int
  stats : StatsC

/-- emptyTree mirrors `New()` (with zero statistics, as after
`ResetStats`). -/
def emptyTree : TreeMem K V := ⟨.nil, 0, StatsC.zero⟩

/-- putM is the public `Tree.Put`. -/
def putM (m : TreeMem K V) (k : K) (v : V) (p : PerfStats) : TreeMem K V × PerfStats :=
  match putRecGo (size m.root) m.root k v m.stats m.len p with
  | (t, s, n, p2) => (⟨blacken t, n, s⟩, p2)

/-- delM is the public `Tree.Delete` (the Bool is its return value). -/
def delM (m : TreeMem K V) (k : K) (p : PerfStats) :
    (TreeMem K V × Bool) × PerfStats :=
  match delRecGo (size m.root) m.root k m.stats m.len p with
  | ((t, d), s, n, p2) => ((⟨blacken t, n, s⟩, d), p2)

/-- Op is one public mutating call. -/
inductive Op (K V : Type) where
  | put (k : K) (v : V) : Op K V
  | del (k : K) : Op K V

/-- applyOp executes one public call against a tree state and the global
perf counters. -/
def applyOp (st : TreeMem K V × PerfStats) : Op K V → TreeMem K V × PerfStats
  | .put k v => putM st.1 k v st.2
  | .del k =>
    match delM st.1 k st.2 with
    | ((m, _), p) => (m, p)

/-- applyOps executes a sequence of public calls starting from a fresh
tree (the global counters start at zero). -/
def applyOps (ops : List (Op K V)) : TreeMem K V × PerfStats :=
  ops.foldl applyOp (emptyTree, PerfStats.zero)

/-- insModel is the effect of `put` on the sorted key/value listing:
insert in order, replacing the payload of an equal key. -/
def insModel : List (K × V) → K → V → List (K × V)
  | [], k, v => [(k, v)]
  | (a, b) :: l, k, v =>
    if k < a then (k, v) :: (a, b) :: l
    else if a < k then (a, b) :: insModel l k v
    else (k, v) :: l

/-- delModel is the effect of `delete` on the sorted key/value listing:
drop the entry with the given key, if any. -/
def delModel (l : List (K × V)) (k : K) : List (K × V) :=
  l.filter (fun q => !(decide (q.1 = k)))

/-- lookupModel is the specification of lookup on the listing. -/
def lookupModel (l : List (K × V)) (k : K) : Option (K × V) :=
  l.find? (fun q => decide (q.1 = k))

/-- modelOps is the sorted key/value listing that a sequence of public
calls should produce. -/
def modelOps (ops : List (Op K V)) : List (K × V) :=
  ops.foldl (fun l op => match op with
    | .put k v => insModel l k v
    | .del k => delModel l k) []

/-- mostRecentPut is the claim-side reading of "the value of the most
recent `Put(k, v)` not followed by a `Delete(k)`": a left fold over the
call sequence. -/
def mostRecentPut (ops : List (Op K V)) (k : K) : Option V :=
  ops.foldl (fun acc op => match op with
    | .put k2 v => if k2 = k then some v else acc
    | .del k2 => if k2 = k then none else acc) none

end InstrumentedOps

/-!
## Concrete examples referenced by the claim theorems
-/

/-- Example tree for the C4 refutation: put 1, 5, 6, 3, 4, 2, then delete
the absent key 7 (all mutation precedes any iteration). -/
def c4tree : HTree Nat Nat :=
  (hdelete ([1, 5, 6, 3, 4, 2].foldl (fun t k => hput t k 0) ⟨[], none⟩) 7).1

/-- Example tree for the C5 refutation: put 7, 1, 3, 9, 5, so the present
keys are 1, 3, 5, 7, 9. -/
def c5tree : HTree Nat Nat := [7, 1, 3, 9, 5].foldl (fun t k => hput t k 0) ⟨[], none⟩

/-- Example tree for the C10 refutation: put 1, 2, 3, 4, 5, 6 in
ascending order into an empty tree (puts only, no deletes). -/
def c10tree : HTree Nat Nat := [1, 2, 3, 4, 5, 6].foldl (fun t k => hput t k 0) ⟨[], none⟩

/-- Heap produced by `c10tree`, written out (proved equal below, so that
the pointer checks run on a literal store). -/
def c10heapLit : Heap Nat Nat :=
  [⟨1, 0, false, some 1, none, none⟩,
   ⟨2, 0, true, some 3, some 0, some 2⟩,
   ⟨3, 0, false, some 3, none, none⟩,
   ⟨4, 0, false, none, some 1, some 5⟩,
   ⟨5, 0, true, some 5, none, none⟩,
   ⟨6, 0, false, some 3, some 4, none⟩]

/-- Keys of the canonical growth scenario (Sedgewick's slides, reproduced
in the repository's TestGrowh).  The Go test uses the one-letter strings
"A", "S", ...; `Char` keys carry the same order (Go's string order on
one-letter ASCII strings is the character order), and the string payload
`""` of the test is irrelevant to the claim, so it is `()` here. -/
def c7keys : List Char := ['A', 'S', 'E', 'R', 'C', 'D', 'I', 'N', 'B', 'X']

/-- Tree grown by inserting the ten canonical keys in order. -/
def c7tree : RBNode Char Unit := c7keys.foldl (fun t k => putRoot t k ()) .nil

/-- Intermediate trees of the growth phase (after each `Put`). -/
def c7growStates : List (RBNode Char Unit) :=
  (c7keys.scanl (fun t k => putRoot t k ()) .nil).drop 1

/-- Trees after each `Delete` of the ten keys, in insertion order,
starting from `c7tree`. -/
def c7delStates : List (RBNode Char Unit) :=
  (c7keys.scanl (fun t k => (deleteRoot t k).1) c7tree).drop 1

/-- Example tree with the keys 10, 20, ..., 80 of the specification's
nearest-key scenario (each key's payload is the key). -/
def c6tree : RBNode Nat Nat :=
  [10, 20, 30, 40, 50, 60, 70, 80].foldl (fun t k => putRoot t k k) .nil

/-- Scenario for C9: tree B receives two puts (1 then 2; the second
triggers a rotation) threaded through the shared global counters, while
tree A (`emptyTree`) is never touched. -/
def c9After : TreeMem Nat Nat × PerfStats :=
  putM (putM emptyTree 1 1 PerfStats.zero).1 2 2 (putM emptyTree 1 1 PerfStats.zero).2

/-!
## Lemmas
-/

theorem keys_nil : keys (.nil : RBNode K V) = [] := rfl

theorem keys_node {c : Bool} {l : RBNode K V} {k : K} {v : V} {r : RBNode K V} :
    keys (.node c l k v r) = keys l ++ k :: keys r := by
  simp [keys, inorder]

theorem all_iff_keys {p : K → Prop} {t : RBNode K V} :
    All p t ↔ ∀ x ∈ keys t, p x := by
  induction t with
  | nil => simp [All, keys, inorder]
  | node c l k v r ihl ihr =>
    simp only [All, keys_node, List.mem_append, List.mem_cons, ihl, ihr]
    constructor
    · rintro ⟨h1, h2, h3⟩ x hx
      rcases hx with hx | rfl | hx
      · exact h1 x hx
      · exact h2
      · exact h3 x hx
    · intro h
      exact ⟨fun x hx => h x (.inl hx), h k (.inr (.inl rfl)),
             fun x hx => h x (.inr (.inr hx))⟩

section OrderedLemmas

variable [LinearOrder K]

/-- bigger finds the head of the filtered sorted key list: the smallest
key strictly above `k` (when `eq = false`) or at least `k` (`eq = true`),
together with that node's payload. -/
theorem bigger_spec (t : RBNode K V) (ht : Ordered t) (k : K) (eq : Bool) :
    (bigger t k eq).map Prod.fst =
      ((keys t).filter (fun x => decide (if eq then k ≤ x else k < x))).head? := by
  induction t with
  | nil => simp [bigger, keys, inorder]
  | node c l k0 v0 r ihl ihr =>
    obtain ⟨hl, hr, hal, har⟩ := ht
    rw [keys_node, List.filter_append, List.filter_cons]
    rcases lt_trichotomy k k0 with h | heq | h
    · -- k < k0: search left, fall back to this node
      have hcond : (decide (if eq then k ≤ k0 else k < k0)) = true := by
        cases eq <;> simp [h, le_of_lt h]
      rw [hcond]
      cases hb : bigger l k eq with
      | none =>
        have hfl : ((keys l).filter (fun x => decide (if eq then k ≤ x else k < x))) = [] := by
          have h2 := ihl hl
          rw [hb] at h2
          exact (List.head?_eq_none_iff).1 h2.symm
        rw [hfl, bigger]
        rw [if_pos h, hb]
        simp
      | some x =>
        have h2 := ihl hl
        rw [hb] at h2
        rw [bigger, if_pos h, hb, List.head?_append_of_ne_nil]
        · exact h2
        · intro hnil
          rw [hnil] at h2
          simp at h2
    · -- k = k0: exact match
      subst heq
      have hfl0 : ∀ b : Bool, ((keys l).filter (fun x => decide (if b then k ≤ x else k < x))) = [] := by
        intro b
        rw [List.filter_eq_nil_iff]
        intro x hx
        have hx' := (all_iff_keys.1 hal) x hx
        cases b <;> simp [not_lt.2 (le_of_lt hx'), not_le.2 hx']
      rw [hfl0]
      cases eq with
      | false =>
        have hcond : (decide (if false then k ≤ k else k < k)) = false := by simp
        rw [hcond, bigger, if_neg (lt_irrefl k), if_neg (lt_irrefl k)]
        simp only [Bool.not_false, if_pos, List.nil_append]
        exact ihr hr
      | true =>
        have hcond : (decide (if true then k ≤ k else k < k)) = true := by simp
        rw [hcond, bigger, if_neg (lt_irrefl k), if_neg (lt_irrefl k)]
        simp
    · -- k0 < k: search right only
      have hfl : ((keys l).filter (fun x => decide (if eq then k ≤ x else k < x))) = [] := by
        rw [List.filter_eq_nil_iff]
        intro x hx
        have hx' := (all_iff_keys.1 hal) x hx
        have hxk : x < k := lt_trans hx' h
        cases eq <;> simp [not_lt.2 (le_of_lt hxk), not_le.2 hxk]
      have hcond : (decide (if eq then k ≤ k0 else k < k0)) = false := by
        cases eq <;> simp [not_le.2 h, not_lt.2 (le_of_lt h)]
      rw [hfl, hcond, bigger, if_neg (not_lt.2 (le_of_lt h)), if_pos h]
      simpa using ihr hr

/-- smaller finds the last entry of the filtered sorted key list: the
largest key strictly below `k` (when `eq = false`) or at most `k`
(`eq = true`). -/
theorem smaller_spec (t : RBNode K V) (ht : Ordered t) (k : K) (eq : Bool) :
    (smaller t k eq).map Prod.fst =
      ((keys t).filter (fun x => decide (if eq then x ≤ k else x < k))).getLast? := by
  induction t with
  | nil => simp [smaller, keys, inorder]
  | node c l k0 v0 r ihl ihr =>
    obtain ⟨hl, hr, hal, har⟩ := ht
    rw [keys_node, List.filter_append, List.filter_cons]
    rcases lt_trichotomy k k0 with h | heq | h
    · -- k < k0: search left only
      have hfr : ((keys r).filter (fun x => decide (if eq then x ≤ k else x < k))) = [] := by
        rw [List.filter_eq_nil_iff]
        intro x hx
        have hx' := (all_iff_keys.1 har) x hx
        have hkx : k < x := lt_trans h hx'
        cases eq <;> simp [not_le.2 hkx, not_lt.2 (le_of_lt hkx)]
      have hcond : (decide (if eq then k0 ≤ k else k0 < k)) = false := by
        cases eq <;> simp [not_le.2 h, not_lt.2 (le_of_lt h)]
      rw [hfr, hcond, smaller, if_pos h]
      simpa using ihl hl
    · -- k = k0: exact match
      subst heq
      have hfr0 : ∀ b : Bool, ((keys r).filter (fun x => decide (if b then x ≤ k else x < k))) = [] := by
        intro b
        rw [List.filter_eq_nil_iff]
        intro x hx
        have hx' := (all_iff_keys.1 har) x hx
        cases b <;> simp [not_le.2 hx', not_lt.2 (le_of_lt hx')]
      rw [hfr0]
      cases eq with
      | false =>
        have hcond : (decide (if false then k ≤ k else k < k)) = false := by simp
        rw [hcond, smaller, if_neg (lt_irrefl k), if_neg (lt_irrefl k)]
        simpa using ihl hl
      | true =>
        have hcond : (decide (if true then k ≤ k else k < k)) = true := by simp
        rw [hcond, smaller, if_neg (lt_irrefl k), if_neg (lt_irrefl k)]
        simp [List.getLast?_append_cons]
    · -- k0 < k: search right, fall back to this node
      have hcond : (decide (if eq then k0 ≤ k else k0 < k)) = true := by
        cases eq <;> simp [h, le_of_lt h]
      rw [hcond]
      cases hb : smaller r k eq with
      | none =>
        have hfr : ((keys r).filter (fun x => decide (if eq then x ≤ k else x < k))) = [] := by
          have h2 := ihr hr
          rw [hb] at h2
          exact (List.getLast?_eq_none_iff).1 h2.symm
        rw [hfr, smaller, if_neg (not_lt.2 (le_of_lt h)), if_pos h, hb]
        simp [List.getLast?_append_cons]
      | some x =>
        have h2 := ihr hr
        rw [hb] at h2
        rw [smaller, if_neg (not_lt.2 (le_of_lt h)), if_pos h, hb]
        cases hfr : ((keys r).filter (fun x => decide (if eq then x ≤ k else x < k))) with
        | nil =>
          rw [hfr] at h2
          simp at h2
        | cons y ys =>
          rw [hfr] at h2
          simp only [if_true, if_pos trivial, List.getLast?_append_cons, List.getLast?_cons_cons]
          exact h2

/-- keys of an ordered tree are strictly sorted (so `head?`/`getLast?` of
a filtered key list are its minimum/maximum). -/
theorem keys_sorted {t : RBNode K V} (ht : Ordered t) : (keys t).Sorted (· < ·) := by
  induction t with
  | nil => simp [keys, inorder]
  | node c l k v r ihl ihr =>
    obtain ⟨hl, hr, hal, har⟩ := ht
    rw [keys_node, List.Sorted, List.pairwise_append]
    refine ⟨ihl hl, ?_, ?_⟩
    · rw [List.pairwise_cons]
      exact ⟨fun y hy => (all_iff_keys.1 har) y hy, ihr hr⟩
    · intro x hx y hy
      have hxk := (all_iff_keys.1 hal) x hx
      rcases List.mem_cons.1 hy with rfl | hy
      · exact hxk
      · exact lt_trans hxk ((all_iff_keys.1 har) y hy)

end OrderedLemmas

/-!
### Inorder and size preservation of the balancing primitives
-/

theorem inorder_toggleColor (t : RBNode K V) : inorder (toggleColor t) = inorder t := by
  cases t <;> simp [toggleColor, inorder]

theorem inorder_flipColor (t : RBNode K V) : inorder (flipColor t) = inorder t := by
  cases t <;> simp [flipColor, inorder, inorder_toggleColor]

theorem inorder_rotateLeft (t : RBNode K V) : inorder (rotateLeft t) = inorder t := by
  cases t with
  | nil => rfl
  | node c l k v r =>
    cases r with
    | nil => rfl
    | node cr rl rk rv rr => simp [rotateLeft, inorder]

theorem inorder_rotateRight (t : RBNode K V) : inorder (rotateRight t) = inorder t := by
  cases t with
  | nil => rfl
  | node c l k v r =>
    cases l with
    | nil => rfl
    | node cl ll lk lv lr => simp [rotateRight, inorder]

theorem inorder_setRight (t x : RBNode K V) (h : inorder x = inorder t.right) :
    inorder (setRight t x) = inorder t := by
  cases t <;> simp_all [setRight, inorder, right]

theorem inorder_setLeft (t x : RBNode K V) (h : inorder x = inorder t.left) :
    inorder (setLeft t x) = inorder t := by
  cases t <;> simp_all [setLeft, inorder, left]

theorem inorder_setRight_rotateRight (t : RBNode K V) :
    inorder (setRight t (rotateRight t.right)) = inorder t :=
  inorder_setRight _ _ (inorder_rotateRight _)

theorem inorder_setRight_rotateLeft (t : RBNode K V) :
    inorder (setRight t (rotateLeft t.right)) = inorder t :=
  inorder_setRight _ _ (inorder_rotateLeft _)

theorem inorder_moveRedLeft (t : RBNode K V) : inorder (moveRedLeft t) = inorder t := by
  simp only [moveRedLeft]
  repeat' split
  all_goals simp [inorder_rotateLeft, inorder_rotateRight, inorder_flipColor,
    inorder_setRight_rotateRight, inorder_setRight_rotateLeft]

theorem inorder_moveRedRight (t : RBNode K V) : inorder (moveRedRight t) = inorder t := by
  simp only [moveRedRight]
  repeat' split
  all_goals simp [inorder_rotateRight, inorder_flipColor]

theorem inorder_fixNode (t : RBNode K V) : inorder (fixNode t) = inorder t := by
  simp only [fixNode]
  repeat' split
  all_goals simp [inorder_rotateLeft, inorder_rotateRight, inorder_flipColor,
    inorder_setRight_rotateRight, inorder_setRight_rotateLeft]

theorem size_toggleColor (t : RBNode K V) : size (toggleColor t) = size t := by
  cases t <;> rfl

theorem size_flipColor (t : RBNode K V) : size (flipColor t) = size t := by
  cases t <;> simp [flipColor, size, size_toggleColor]

theorem size_rotateLeft (t : RBNode K V) : size (rotateLeft t) = size t := by
  cases t with
  | nil => rfl
  | node c l k v r =>
    cases r with
    | nil => rfl
    | node cr rl rk rv rr =>
      simp only [rotateLeft, size]
      omega

theorem size_rotateRight (t : RBNode K V) : size (rotateRight t) = size t := by
  cases t with
  | nil => rfl
  | node c l k v r =>
    cases l with
    | nil => rfl
    | node cl ll lk lv lr =>
      simp only [rotateRight, size]
      omega

theorem size_setRight (t x : RBNode K V) (h : size x = size t.right) :
    size (setRight t x) = size t := by
  cases t <;> simp_all [setRight, size, right]

theorem size_setLeft (t x : RBNode K V) (h : size x = size t.left) :
    size (setLeft t x) = size t := by
  cases t <;> simp_all [setLeft, size, left]

theorem size_setRight_rotateRight (t : RBNode K V) :
    size (setRight t (rotateRight t.right)) = size t :=
  size_setRight _ _ (size_rotateRight _)

theorem size_setRight_rotateLeft (t : RBNode K V) :
    size (setRight t (rotateLeft t.right)) = size t :=
  size_setRight _ _ (size_rotateLeft _)

theorem size_moveRedLeft (t : RBNode K V) : size (moveRedLeft t) = size t := by
  simp only [moveRedLeft]
  repeat' split
  all_goals simp [size_rotateLeft, size_rotateRight, size_flipColor,
    size_setRight_rotateRight, size_setRight_rotateLeft]

theorem size_moveRedRight (t : RBNode K V) : size (moveRedRight t) = size t := by
  simp only [moveRedRight]
  repeat' split
  all_goals simp [size_rotateRight, size_flipColor]

theorem size_fixNode (t : RBNode K V) : size (fixNode t) = size t := by
  simp only [fixNode]
  repeat' split
  all_goals simp [size_rotateLeft, size_rotateRight, size_flipColor,
    size_setRight_rotateRight, size_setRight_rotateLeft]

/-!
### The effect of put on the inorder listing
-/

theorem ordered_toggleColor [LinearOrder K] {t : RBNode K V} :
    Ordered (toggleColor t) ↔ Ordered t := by
  cases t <;> simp [toggleColor, Ordered]

theorem all_toggleColor {p : K → Prop} {t : RBNode K V} :
    All p (toggleColor t) ↔ All p t := by
  cases t <;> simp [toggleColor, All]

section PutContent

variable [LinearOrder K]

theorem insModel_left {xs ys : List (K × V)} {k0 : K} {v0 : V} {k : K} {v : V}
    (hxs : ∀ p ∈ xs, p.1 < k0) (hk : k < k0) :
    insModel (xs ++ (k0, v0) :: ys) k v = insModel xs k v ++ (k0, v0) :: ys := by
  induction xs with
  | nil => simp [insModel, hk]
  | cons a l ih =>
    obtain ⟨a1, a2⟩ := a
    have ha := hxs (a1, a2) (List.mem_cons_self _ _)
    rcases lt_trichotomy k a1 with h1 | rfl | h1
    · simp [insModel, h1]
    · simp [insModel, lt_irrefl]
    · have hne : ¬ k < a1 := not_lt.2 (le_of_lt h1)
      simp only [List.cons_append, insModel, if_neg hne, if_pos h1, List.append_eq]
      rw [ih (fun p hp => hxs p (List.mem_cons_of_mem _ hp))]

theorem insModel_right {xs ys : List (K × V)} {k0 : K} {v0 : V} {k : K} {v : V}
    (hxs : ∀ p ∈ xs, p.1 < k0) (hk : k0 < k) :
    insModel (xs ++ (k0, v0) :: ys) k v = xs ++ (k0, v0) :: insModel ys k v := by
  induction xs with
  | nil => simp [insModel, hk, not_lt.2 (le_of_lt hk)]
  | cons a l ih =>
    obtain ⟨a1, a2⟩ := a
    have ha := hxs (a1, a2) (List.mem_cons_self _ _)
    have hak : a1 < k := lt_trans ha hk
    simp only [List.cons_append, insModel, if_neg (not_lt.2 (le_of_lt hak)), if_pos hak,
      List.append_eq]
    rw [ih (fun p hp => hxs p (List.mem_cons_of_mem _ hp))]

theorem insModel_update {xs ys : List (K × V)} {k : K} {v0 : V} {v : V}
    (hxs : ∀ p ∈ xs, p.1 < k) :
    insModel (xs ++ (k, v0) :: ys) k v = xs ++ (k, v) :: ys := by
  induction xs with
  | nil => simp [insModel, lt_irrefl]
  | cons a l ih =>
    obtain ⟨a1, a2⟩ := a
    have ha := hxs (a1, a2) (List.mem_cons_self _ _)
    simp only [List.cons_append, insModel, if_neg (not_lt.2 (le_of_lt ha)), if_pos ha,
      List.append_eq]
    rw [ih (fun p hp => hxs p (List.mem_cons_of_mem _ hp))]

theorem inorder_putGo : ∀ (f : Nat) (t : RBNode K V) (k : K) (v : V),
    size t ≤ f → Ordered t →
    inorder (putGo f t k v) = insModel (inorder t) k v := by
  intro f
  induction f with
  | zero =>
    intro t k v hf ht
    cases t with
    | nil => simp [putGo, inorder, insModel]
    | node c l nm dt r => simp [size] at hf
  | succ f ih =>
    intro t k v hf ht
    cases t with
    | nil => simp [putGo, inorder, insModel]
    | node c l nm dt r =>
      obtain ⟨hol, hor, hall, halr⟩ := ht
      have hkl : ∀ p ∈ inorder l, p.1 < nm := fun p hp =>
        (all_iff_keys.1 hall) p.1 (List.mem_map_of_mem _ hp)
      have hkr : ∀ p ∈ inorder r, nm < p.1 := fun p hp =>
        (all_iff_keys.1 halr) p.1 (List.mem_map_of_mem _ hp)
      have hfl : size l ≤ f := by simp [size] at hf; omega
      have hfr : size r ≤ f := by simp [size] at hf; omega
      by_cases hw : (LLRB234 && isRed l && isRed r) = true
      · -- 4-node split on the way down
        rcases lt_trichotomy k nm with hc | rfl | hc
        · have h2 : inorder (setLeft (flipColor (.node c l nm dt r))
              (putGo f (flipColor (.node c l nm dt r)).left k v)) =
              insModel (inorder (RBNode.node c l nm dt r)) k v := by
            simp only [flipColor, left, setLeft, inorder]
            rw [ih _ k v (by rw [size_toggleColor]; exact hfl)
              (ordered_toggleColor.2 hol), inorder_toggleColor, inorder_toggleColor,
              insModel_left hkl hc]
          simp only [putGo, hw, if_true, if_pos hc]
          repeat' split
          all_goals simp [inorder_rotateLeft, inorder_rotateRight, inorder_flipColor, h2]
        · have h2 : inorder (setData (flipColor (.node c l k dt r)) v) =
              insModel (inorder (RBNode.node c l k dt r)) k v := by
            simp only [flipColor, setData, inorder]
            rw [inorder_toggleColor, inorder_toggleColor, insModel_update hkl]
          simp only [putGo, hw, if_true, if_neg (lt_irrefl k)]
          repeat' split
          all_goals simp [inorder_rotateLeft, inorder_rotateRight, inorder_flipColor, h2]
        · have h2 : inorder (setRight (flipColor (.node c l nm dt r))
              (putGo f (flipColor (.node c l nm dt r)).right k v)) =
              insModel (inorder (RBNode.node c l nm dt r)) k v := by
            simp only [flipColor, right, setRight, inorder]
            rw [ih _ k v (by rw [size_toggleColor]; exact hfr)
              (ordered_toggleColor.2 hor), inorder_toggleColor, inorder_toggleColor,
              insModel_right hkl hc]
          simp only [putGo, hw, if_true, if_neg (not_lt.2 (le_of_lt hc)), if_pos hc]
          repeat' split
          all_goals simp [inorder_rotateLeft, inorder_rotateRight, inorder_flipColor, h2]
      · -- no split
        rcases lt_trichotomy k nm with hc | rfl | hc
        · have h2 : inorder (setLeft (RBNode.node c l nm dt r)
              (putGo f l k v)) = insModel (inorder (RBNode.node c l nm dt r)) k v := by
            simp only [setLeft, inorder]
            rw [ih _ k v hfl hol, insModel_left hkl hc]
          simp only [putGo, hw, if_false, Bool.false_eq_true, if_pos hc, left]
          repeat' split
          all_goals simp [inorder_rotateLeft, inorder_rotateRight, inorder_flipColor, h2]
        · have h2 : inorder (setData (RBNode.node c l k dt r) v) =
              insModel (inorder (RBNode.node c l k dt r)) k v := by
            simp only [setData, inorder]
            rw [insModel_update hkl]
          simp only [putGo, hw, if_false, Bool.false_eq_true, if_neg (lt_irrefl k)]
          repeat' split
          all_goals simp [inorder_rotateLeft, inorder_rotateRight, inorder_flipColor, h2]
        · have h2 : inorder (setRight (RBNode.node c l nm dt r)
              (putGo f r k v)) = insModel (inorder (RBNode.node c l nm dt r)) k v := by
            simp only [setRight, inorder]
            rw [ih _ k v hfr hor, insModel_right hkl hc]
          simp only [putGo, hw, if_false, Bool.false_eq_true,
            if_neg (not_lt.2 (le_of_lt hc)), if_pos hc, right]
          repeat' split
          all_goals simp [inorder_rotateLeft, inorder_rotateRight, inorder_flipColor, h2]

end PutContent

theorem inorder_blacken (t : RBNode K V) : inorder (blacken t) = inorder t := by
  cases t <;> simp [blacken, inorder]

section ModelLemmas

variable [LinearOrder K]

theorem getNode_toggleColor {t : RBNode K V} {k : K} :
    getNode (toggleColor t) k = getNode t k := by
  cases t <;> simp [toggleColor, getNode]

theorem getNode_blacken {t : RBNode K V} {k : K} :
    getNode (blacken t) k = getNode t k := by
  cases t <;> simp [blacken, getNode]

theorem ordered_blacken {t : RBNode K V} : Ordered (blacken t) ↔ Ordered t := by
  cases t <;> simp [blacken, Ordered]

theorem keys_insModel {l : List (K × V)} {k x : K} {v : V} :
    x ∈ (insModel l k v).map Prod.fst ↔ x = k ∨ x ∈ l.map Prod.fst := by
  induction l with
  | nil => simp [insModel]
  | cons a l ih =>
    obtain ⟨a1, a2⟩ := a
    rcases lt_trichotomy k a1 with h1 | rfl | h1
    · simp [insModel, h1]
    · simp only [insModel, if_neg (lt_irrefl k), List.map_cons, List.mem_cons]
      tauto
    · simp only [insModel, if_neg (not_lt.2 (le_of_lt h1)), if_pos h1, List.map_cons,
        List.mem_cons, ih]
      tauto

theorem sorted_insModel {l : List (K × V)} {k : K} {v : V}
    (hs : List.Sorted (· < ·) (l.map Prod.fst)) :
    List.Sorted (· < ·) ((insModel l k v).map Prod.fst) := by
  induction l with
  | nil => simp [insModel, List.Sorted]
  | cons a l ih =>
    obtain ⟨a1, a2⟩ := a
    rw [List.map_cons, List.Sorted, List.pairwise_cons] at hs
    obtain ⟨ha, hs⟩ := hs
    rcases lt_trichotomy k a1 with h1 | rfl | h1
    · simp only [insModel, if_pos h1, List.map_cons, List.Sorted, List.pairwise_cons]
      refine ⟨?_, ha, hs⟩
      intro b hb
      rcases List.mem_cons.1 hb with rfl | hb
      · exact h1
      · exact lt_trans h1 (ha b hb)
    · simp only [insModel, if_neg (lt_irrefl k), List.map_cons, List.Sorted,
        List.pairwise_cons]
      exact ⟨ha, hs⟩
    · simp only [insModel, if_neg (not_lt.2 (le_of_lt h1)), if_pos h1, List.map_cons,
        List.Sorted, List.pairwise_cons]
      refine ⟨?_, ih hs⟩
      intro b hb
      rcases keys_insModel.1 hb with rfl | hb
      · exact h1
      · exact ha b hb

theorem ordered_of_sorted {t : RBNode K V}
    (hs : List.Sorted (· < ·) (keys t)) : Ordered t := by
  induction t with
  | nil => trivial
  | node c l k v r ihl ihr =>
    rw [keys_node, List.Sorted, List.pairwise_append] at hs
    obtain ⟨hl, hr, hx⟩ := hs
    rw [List.pairwise_cons] at hr
    obtain ⟨hk, hr⟩ := hr
    exact ⟨ihl hl, ihr hr,
      all_iff_keys.2 (fun x hx2 => hx x hx2 k (List.mem_cons_self _ _)),
      all_iff_keys.2 hk⟩

theorem ordered_putGo {f : Nat} {t : RBNode K V} {k : K} {v : V}
    (hf : size t ≤ f) (ht : Ordered t) : Ordered (putGo f t k v) := by
  apply ordered_of_sorted
  have : keys (putGo f t k v) = (insModel (inorder t) k v).map Prod.fst := by
    rw [keys, inorder_putGo f t k v hf ht]
  rw [this]
  exact sorted_insModel (keys_sorted ht)

theorem lookupModel_append {xs ys : List (K × V)} {k : K} :
    lookupModel (xs ++ ys) k = (lookupModel xs k).or (lookupModel ys k) := by
  simp [lookupModel, List.find?_append]

theorem lookupModel_absent {l : List (K × V)} {k : K}
    (h : ∀ p ∈ l, p.1 ≠ k) : lookupModel l k = none := by
  rw [lookupModel, List.find?_eq_none]
  intro p hp
  simpa using h p hp

/-- getNode is lookup in the inorder listing (on ordered trees). -/
theorem getNode_model {t : RBNode K V} (ht : Ordered t) (k : K) :
    getNode t k = lookupModel (inorder t) k := by
  induction t with
  | nil => rfl
  | node c l nm dt r ihl ihr =>
    obtain ⟨hol, hor, hall, halr⟩ := ht
    have hkl : ∀ p ∈ inorder l, p.1 < nm := fun p hp =>
      (all_iff_keys.1 hall) p.1 (List.mem_map_of_mem _ hp)
    have hkr : ∀ p ∈ inorder r, nm < p.1 := fun p hp =>
      (all_iff_keys.1 halr) p.1 (List.mem_map_of_mem _ hp)
    rw [show inorder (RBNode.node c l nm dt r) = inorder l ++ (nm, dt) :: inorder r from rfl,
      lookupModel_append]
    rcases lt_trichotomy k nm with hc | rfl | hc
    · have habs : lookupModel ((nm, dt) :: inorder r) k = none := by
        apply lookupModel_absent
        intro p hp
        rcases List.mem_cons.1 hp with rfl | hp
        · exact ne_of_gt hc
        · exact ne_of_gt (lt_trans hc (hkr p hp))
      rw [getNode, if_pos hc, ihl hol, habs, Option.or_none]
    · have habs : lookupModel (inorder l) k = none :=
        lookupModel_absent (fun p hp => ne_of_lt (hkl p hp))
      rw [getNode, if_neg (lt_irrefl k), if_neg (lt_irrefl k), habs, Option.none_or,
        lookupModel, List.find?_cons_of_pos _ (by simp)]
    · have habs : lookupModel (inorder l) k = none :=
        lookupModel_absent (fun p hp => ne_of_lt (lt_trans (hkl p hp) hc))
      have hrhs : lookupModel ((nm, dt) :: inorder r) k = lookupModel (inorder r) k := by
        rw [lookupModel, List.find?_cons_of_neg _ (by simp [(ne_of_gt hc).symm])]
        rfl
      rw [getNode, if_neg (not_lt.2 (le_of_lt hc)), if_pos hc, ihr hor, habs, Option.none_or,
        hrhs]

theorem lookupModel_insModel {l : List (K × V)} {k k2 : K} {v : V} :
    lookupModel (insModel l k v) k2 =
      if k2 = k then some (k, v) else lookupModel l k2 := by
  induction l with
  | nil =>
    simp only [insModel]
    by_cases h : k2 = k
    · subst h
      rw [if_pos rfl, lookupModel, List.find?_cons_of_pos _ (by simp)]
    · rw [if_neg h, lookupModel, List.find?_cons_of_neg _ (by simp [Ne.symm h])]
      rfl
  | cons a l ih =>
    obtain ⟨a1, a2⟩ := a
    rcases lt_trichotomy k a1 with h1 | rfl | h1
    · simp only [insModel, if_pos h1]
      by_cases h : k2 = k
      · subst h
        rw [if_pos rfl, lookupModel, List.find?_cons_of_pos _ (by simp)]
      · rw [if_neg h, lookupModel, List.find?_cons_of_neg _ (by simp [Ne.symm h])]
        rfl
    · simp only [insModel, if_neg (lt_irrefl k)]
      by_cases h : k2 = k
      · subst h
        rw [if_pos rfl, lookupModel, List.find?_cons_of_pos _ (by simp)]
      · rw [if_neg h, lookupModel, List.find?_cons_of_neg _ (by simp [Ne.symm h]),
          lookupModel, List.find?_cons_of_neg _ (by simp [Ne.symm h])]
    · simp only [insModel, if_neg (not_lt.2 (le_of_lt h1)), if_pos h1]
      by_cases h : k2 = a1
      · subst h
        have hne : ¬ k2 = k := ne_of_lt h1
        rw [if_neg hne, lookupModel, List.find?_cons_of_pos _ (by simp), lookupModel,
          List.find?_cons_of_pos _ (by simp)]
      · rw [lookupModel, List.find?_cons_of_neg _ (by simp [Ne.symm h])]
        rw [show List.find? (fun q => decide (q.1 = k2)) (insModel l k v) =
          lookupModel (insModel l k v) k2 from rfl, ih]
        by_cases h2 : k2 = k
        · rw [if_pos h2, if_pos h2]
        · rw [if_neg h2, if_neg h2]
          have hstep : lookupModel ((a1, a2) :: l) k2 = lookupModel l k2 := by
            rw [lookupModel, List.find?_cons_of_neg _ (by simp [Ne.symm h])]
            rfl
          rw [hstep]

theorem length_insModel {l : List (K × V)} {k : K} {v : V}
    (hs : List.Sorted (· < ·) (l.map Prod.fst)) :
    (insModel l k v).length =
      if k ∈ l.map Prod.fst then l.length else l.length + 1 := by
  induction l with
  | nil => simp [insModel]
  | cons a l ih =>
    obtain ⟨a1, a2⟩ := a
    rw [List.map_cons, List.Sorted, List.pairwise_cons] at hs
    obtain ⟨ha, hs⟩ := hs
    rcases lt_trichotomy k a1 with h1 | rfl | h1
    · have habs : ¬ k ∈ a1 :: l.map Prod.fst := by
        intro hmem
        rcases List.mem_cons.1 hmem with rfl | hmem
        · exact lt_irrefl k h1
        · exact lt_asymm h1 (ha k hmem)
      simp [insModel, h1, habs]
    · simp [insModel, lt_irrefl]
    · have hne : ¬ k = a1 := ne_of_gt h1
      simp only [insModel, if_neg (not_lt.2 (le_of_lt h1)), if_pos h1, List.length_cons,
        List.map_cons, List.mem_cons, ih hs]
      by_cases hm : k ∈ l.map Prod.fst <;> simp [hm, hne]

end ModelLemmas

section PutStats

variable [LinearOrder K]

set_option maxHeartbeats 1000000 in
/-- putRecGo computes the same tree as putGo, increments exactly one of
the `Put.New`/`Put.Update` counters according to whether the key was
found, and adjusts `len` accordingly. -/
theorem putRecGo_spec : ∀ (f : Nat) (t : RBNode K V) (k : K) (v : V) (s : StatsC) (n : Int)
    (p : PerfStats), size t ≤ f →
    (putRecGo f t k v s n p).1 = putGo f t k v ∧
    (putRecGo f t k v s n p).2.1 =
      (if (getNode t k).isSome then
        ⟨s.putNew, s.putUpdate + 1, s.deleteDeleted, s.deleteNotFound, s.getFound, s.getNotFound⟩
       else
        (⟨s.putNew + 1, s.putUpdate, s.deleteDeleted, s.deleteNotFound, s.getFound,
          s.getNotFound⟩ : StatsC)) ∧
    (putRecGo f t k v s n p).2.2.1 = (if (getNode t k).isSome then n else n + 1) := by
  intro f
  induction f with
  | zero =>
    intro t k v s n p hf
    cases t with
    | nil => simp [putRecGo, putGo, getNode]
    | node c l nm dt r => simp [size] at hf
  | succ f ih =>
    intro t k v s n p hf
    cases t with
    | nil => simp [putRecGo, putGo, getNode]
    | node c l nm dt r =>
      have hfl : size l ≤ f := by simp [size] at hf; omega
      have hfr : size r ≤ f := by simp [size] at hf; omega
      by_cases hw : (LLRB234 && isRed l && isRed r) = true
      · rcases lt_trichotomy k nm with hc | rfl | hc
        · obtain ⟨ih1, ih2, ih3⟩ := ih (toggleColor l) k v s n
            ⟨p.flip + 1, p.rotateLeft, p.rotateRight⟩ (by rw [size_toggleColor]; exact hfl)
          rcases hq : putRecGo f (toggleColor l) k v s n
            ⟨p.flip + 1, p.rotateLeft, p.rotateRight⟩ with ⟨l2, s2, n2, p2⟩
          rw [hq] at ih1 ih2 ih3
          simp only at ih1 ih2 ih3
          have hg : getNode (RBNode.node c l nm dt r) k = getNode (toggleColor l) k := by
            simp [getNode, hc, getNode_toggleColor]
          simp only [putRecGo, putGo, hw, if_true, if_pos hc, flipColorP, flipColor, left,
            hq, hg, ih1, ih2, ih3, rotateLeftP, rotateRightP]
          repeat' split
          all_goals simp_all [LLRB234, flipColorP]

        · obtain hg : getNode (RBNode.node c l k dt r) k = some (k, dt) := by
            simp [getNode]
          simp only [putRecGo, putGo, hw, if_true, if_neg (lt_irrefl k), hg, flipColorP,
            rotateLeftP, rotateRightP]
          repeat' split
          all_goals simp_all [LLRB234, flipColorP]
        · obtain ⟨ih1, ih2, ih3⟩ := ih (toggleColor r) k v s n
            ⟨p.flip + 1, p.rotateLeft, p.rotateRight⟩ (by rw [size_toggleColor]; exact hfr)
          rcases hq : putRecGo f (toggleColor r) k v s n
            ⟨p.flip + 1, p.rotateLeft, p.rotateRight⟩ with ⟨r2, s2, n2, p2⟩
          rw [hq] at ih1 ih2 ih3
          simp only at ih1 ih2 ih3
          have hg : getNode (RBNode.node c l nm dt r) k = getNode (toggleColor r) k := by
            simp [getNode, hc, not_lt.2 (le_of_lt hc), getNode_toggleColor]
          simp only [putRecGo, putGo, hw, if_true, if_neg (not_lt.2 (le_of_lt hc)), if_pos hc,
            flipColorP, flipColor, right, hq, hg, ih1, ih2, ih3, rotateLeftP, rotateRightP]
          repeat' split
          all_goals simp_all [LLRB234, flipColorP]
      · rcases lt_trichotomy k nm with hc | rfl | hc
        · obtain ⟨ih1, ih2, ih3⟩ := ih l k v s n p hfl
          rcases hq : putRecGo f l k v s n p with ⟨l2, s2, n2, p2⟩
          rw [hq] at ih1 ih2 ih3
          simp only at ih1 ih2 ih3
          have hg : getNode (RBNode.node c l nm dt r) k = getNode l k := by
            simp [getNode, hc]
          simp only [putRecGo, putGo, hw, if_false, Bool.false_eq_true, if_pos hc, left,
            hq, hg, ih1, ih2, ih3, rotateLeftP, rotateRightP]
          repeat' split
          all_goals simp_all [LLRB234, flipColorP]
        · obtain hg : getNode (RBNode.node c l k dt r) k = some (k, dt) := by
            simp [getNode]
          simp only [putRecGo, putGo, hw, if_false, Bool.false_eq_true, if_neg (lt_irrefl k),
            hg, flipColorP, rotateLeftP, rotateRightP]
          repeat' split
          all_goals simp_all [LLRB234, flipColorP]
        · obtain ⟨ih1, ih2, ih3⟩ := ih r k v s n p hfr
          rcases hq : putRecGo f r k v s n p with ⟨r2, s2, n2, p2⟩
          rw [hq] at ih1 ih2 ih3
          simp only at ih1 ih2 ih3
          have hg : getNode (RBNode.node c l nm dt r) k = getNode r k := by
            simp [getNode, hc, not_lt.2 (le_of_lt hc)]
          simp only [putRecGo, putGo, hw, if_false, Bool.false_eq_true,
            if_neg (not_lt.2 (le_of_lt hc)), if_pos hc, right, hq, hg, ih1, ih2, ih3,
            rotateLeftP, rotateRightP]
          repeat' split
          all_goals simp_all [LLRB234, flipColorP]

end PutStats

section PutM

variable [LinearOrder K]

theorem ordered_putRoot {t : RBNode K V} {k : K} {v : V} (ht : Ordered t) :
    Ordered (putRoot t k v) :=
  ordered_blacken.2 (ordered_putGo le_rfl ht)

theorem getNode_putRoot {t : RBNode K V} {k : K} {v : V} (k2 : K) (ht : Ordered t) :
    getNode (putRoot t k v) k2 = if k2 = k then some (k, v) else getNode t k2 := by
  rw [putRoot, getNode_blacken, put, getNode_model (ordered_putGo le_rfl ht),
    inorder_putGo _ _ _ _ le_rfl ht, lookupModel_insModel, ← getNode_model ht]

/-- putM updates the root by the public `Put`, bumps `Put.New` or
`Put.Update` according to presence of the key, and adjusts `len`. -/
theorem putM_spec (m : TreeMem K V) (k : K) (v : V) (p : PerfStats) :
    (putM m k v p).1.root = putRoot m.root k v ∧
    (putM m k v p).1.stats =
      (if (getNode m.root k).isSome then
        ⟨m.stats.putNew, m.stats.putUpdate + 1, m.stats.deleteDeleted, m.stats.deleteNotFound,
         m.stats.getFound, m.stats.getNotFound⟩
       else
        (⟨m.stats.putNew + 1, m.stats.putUpdate, m.stats.deleteDeleted, m.stats.deleteNotFound,
          m.stats.getFound, m.stats.getNotFound⟩ : StatsC)) ∧
    (putM m k v p).1.len = (if (getNode m.root k).isSome then m.len else m.len + 1) := by
  obtain ⟨h1, h2, h3⟩ := putRecGo_spec (size m.root) m.root k v m.stats m.len p le_rfl
  rcases hq : putRecGo (size m.root) m.root k v m.stats m.len p with ⟨t2, s2, n2, p2⟩
  rw [hq] at h1 h2 h3
  simp only at h1 h2 h3
  simp only [putM, hq, putRoot, put, h1, h2, h3]
  exact ⟨trivial, trivial, trivial⟩

/-- Folding fresh-key puts over a tree: each adds one to `Put.New` and
leaves `Put.Update` alone. -/
theorem puts_fresh_stats : ∀ (kvs : List (K × V)) (m : TreeMem K V) (p : PerfStats),
    Ordered m.root → (kvs.map Prod.fst).Nodup →
    (∀ k ∈ kvs.map Prod.fst, getNode m.root k = none) →
    (kvs.foldl (fun st kv => putM st.1 kv.1 kv.2 st.2) (m, p)).1.stats.putNew
        = m.stats.putNew + kvs.length ∧
    (kvs.foldl (fun st kv => putM st.1 kv.1 kv.2 st.2) (m, p)).1.stats.putUpdate
        = m.stats.putUpdate := by
  intro kvs
  induction kvs with
  | nil => intro m p _ _ _; simp
  | cons kv rest ih =>
    intro m p hord hnodup hfresh
    obtain ⟨k, v⟩ := kv
    have hk : getNode m.root k = none := hfresh k (by simp)
    obtain ⟨h1, h2, h3⟩ := putM_spec m k v p
    rcases hq : putM m k v p with ⟨m2, p2⟩
    rw [hq] at h1 h2 h3
    simp only at h1 h2 h3
    rw [hk] at h2
    simp only [Option.isSome_none, Bool.false_eq_true, if_false] at h2
    have hord2 : Ordered m2.root := by
      rw [h1]
      exact ordered_putRoot hord
    have hnodup2 : (rest.map Prod.fst).Nodup := by
      simp only [List.map_cons, List.nodup_cons] at hnodup
      exact hnodup.2
    have hfresh2 : ∀ k2 ∈ rest.map Prod.fst, getNode m2.root k2 = none := by
      intro k2 hk2
      rw [h1, getNode_putRoot k2 hord]
      have hne : ¬ k2 = k := by
        simp only [List.map_cons, List.nodup_cons] at hnodup
        intro he
        exact hnodup.1 (he ▸ hk2)
      rw [if_neg hne]
      exact hfresh k2 (by simp [hk2])
    have hrest := ih m2 p2 hord2 hnodup2 hfresh2
    constructor
    · rw [List.foldl_cons, hq, hrest.1, h2]
      show m.stats.putNew + 1 + rest.length = m.stats.putNew + (rest.length + 1)
      omega
    · rw [List.foldl_cons, hq, hrest.2, h2]

/-- C8 statement, general form, plus the update-path clause. -/
theorem c8_general (m : TreeMem K V) (p : PerfStats) (kvs : List (K × V))
    (hord : Ordered m.root) (hreset : m.stats = StatsC.zero)
    (hnodup : (kvs.map Prod.fst).Nodup)
    (hfresh : ∀ k ∈ kvs.map Prod.fst, getNode m.root k = none) :
    (statsFn (kvs.foldl (fun st kv => putM st.1 kv.1 kv.2 st.2) (m, p)).1.stats
       (kvs.foldl (fun st kv => putM st.1 kv.1 kv.2 st.2) (m, p)).2).putNew = kvs.length ∧
    (statsFn (kvs.foldl (fun st kv => putM st.1 kv.1 kv.2 st.2) (m, p)).1.stats
       (kvs.foldl (fun st kv => putM st.1 kv.1 kv.2 st.2) (m, p)).2).putUpdate = 0 := by
  obtain ⟨h1, h2⟩ := puts_fresh_stats kvs m p hord hnodup hfresh
  rw [hreset] at h1 h2
  constructor
  · simpa [statsFn, StatsC.zero] using h1
  · simpa [statsFn, StatsC.zero] using h2

end PutM

/-!
## Claim theorems
-/

/-- C3: the claim says deleting a present key returns `true`.  Failing
input: insert 1, 2, 3 into an empty tree and delete 2.  The key 2 is
present, the deletion removes it (the resulting tree holds exactly 1 and
3), yet the returned flag is `false`: the "found in the middle" branch of
`Tree.delete` never sets `deleted`.  (The absent-key half of the claim is
proved separately as part of the corrected statement machinery.) -/
theorem c3_delete_present_returns_false :
    (getNode (putRoot (putRoot (putRoot (.nil : RBNode Nat Nat) 1 1) 2 2) 3 3) 2).isSome = true ∧
    deleteRoot (putRoot (putRoot (putRoot (.nil : RBNode Nat Nat) 1 1) 2 2) 3 3) 2 =
      (.node false (.node true .nil 1 1 .nil) 3 3 .nil, false) := by
  constructor
  · rfl
  · rfl

/-- C4: the claim says an `Iter()` traversal of a tree that is not mutated
during the iteration yields exactly the present keys.  Failing input:
`c4tree` (put 1, 5, 6, 3, 4, 2 then delete the absent key 7).  The tree
holds the keys 1..6, but the fast iterator yields only 1, 2, 3, 4 (a
rotation during the delete left a stale `up` back-reference, and the
up-walk of `Iter.Next` terminates early). -/
theorem c4_iter_skips_present_keys :
    (RBNode.inorder (readTree 10 c4tree.heap c4tree.root)).map Prod.fst = [1, 2, 3, 4, 5, 6] ∧
    hcollect 20 c4tree (hiter c4tree) = [1, 2, 3, 4] := by
  constructor
  · decide
  · decide

/-- C5: the claim says `Range(lo, hi)` never yields a key greater than
`hi` and yields the empty sequence when no present key lies in the range.
Failing input: `c5tree` (present keys 1, 3, 5, 7, 9) iterated with
`Range(8, 8)`: no present key lies in `[8, 8]`, yet the iterator yields 9,
because `Tree.Range` applies no bound check to the initial cursor returned
by the `bigger` search. -/
theorem c5_range_yields_key_beyond_hi :
    (RBNode.inorder (readTree 10 c5tree.heap c5tree.root)).map Prod.fst = [1, 3, 5, 7, 9] ∧
    hcollect 20 c5tree (hrange c5tree 8 8) = [9] := by
  constructor
  · decide
  · decide

set_option maxHeartbeats 1000000 in
/-- C10: the claim says that after every `Put` and `Delete` each child's
`up` back-reference points to its parent.  Failing input: `c10tree` (put
1, 2, 3, 4, 5, 6 into an empty tree, puts only).  Afterwards the node
holding 3 (address 2) is the right child of the node holding 2 (address
1), but its `up` pointer still names the node holding 4 (address 3, its
parent before a rotation): `rotateLeft` re-points the rotated pair's `up`
fields but not the transferred inner child's, and `Tree.put` only
re-points the subtree root returned by the recursive call. -/
theorem c10_up_pointer_stale_after_puts :
    c10tree.heap = c10heapLit ∧ c10tree.root = some 3 ∧
    upOk 7 c10heapLit (some 3) = false ∧
    (hget c10heapLit 1).name = 2 ∧ (hget c10heapLit 2).name = 3 ∧
    (hget c10heapLit 3).name = 4 ∧
    (hget c10heapLit 1).right = some 2 ∧ (hget c10heapLit 2).up = some 3 := by
  refine ⟨?_, ?_, ?_, ?_, ?_, ?_, ?_, ?_⟩ <;> decide

set_option maxHeartbeats 1000000 in
/-- C7: inserting "A","S","E","R","C","D","I","N","B","X" in order into an
empty tree in the 2-3-4 variant (`LLRB234 = true`) produces exactly the
tree with black root "E", left child "C" (black) with children "B" (black,
red left child "A") and "D" (black), and right child "R" (black) with
children "N" (black, red left child "I") and "X" (black, red left child
"S"); every intermediate tree of the growth passes `Check`, and deleting
all ten keys afterwards returns the tree to empty with no intermediate
`Check` violation. -/
theorem c7_growth_scenario :
    c7tree = .node false
      (.node false (.node false (.node true .nil 'A' () .nil) 'B' () .nil) 'C' ()
        (.node false .nil 'D' () .nil))
      'E' ()
      (.node false (.node false (.node true .nil 'I' () .nil) 'N' () .nil) 'R' ()
        (.node false (.node true .nil 'S' () .nil) 'X' () .nil)) ∧
    c7growStates.all (fun t => (check t).isNone) = true ∧
    c7delStates.all (fun t => (check t).isNone) = true ∧
    c7delStates.getLast? = some .nil := by
  refine ⟨?_, ?_, ?_, ?_⟩ <;> decide

/-- C6: for every ordered tree and boundary key `k`, `Bigger` returns the
smallest present key strictly greater than `k` and `Smaller` the largest
strictly smaller one (`none` when no key qualifies); `EqualOrBigger` and
`EqualOrSmaller` return `k` itself when present and otherwise the nearest
qualifying key; the `includeEqual = false` searches pass an exact match
strictly (they continue into the matching node's right respectively left
subtree, as the definitions of `bigger` and `smaller` show).  The key
list is strictly sorted, so `head?`/`getLast?` of the filtered key list
are exactly the minimum/maximum qualifying keys. -/
theorem c6_nearest_key_queries [LinearOrder K] (t : RBNode K V) (ht : Ordered t) (k : K) :
    List.Sorted (· < ·) (keys t) ∧
    (bigger t k false).map Prod.fst = ((keys t).filter (fun x => decide (k < x))).head? ∧
    (smaller t k false).map Prod.fst = ((keys t).filter (fun x => decide (x < k))).getLast? ∧
    (bigger t k true).map Prod.fst = ((keys t).filter (fun x => decide (k ≤ x))).head? ∧
    (smaller t k true).map Prod.fst = ((keys t).filter (fun x => decide (x ≤ k))).getLast? := by
  refine ⟨keys_sorted ht, ?_, ?_, ?_, ?_⟩
  · simpa using bigger_spec t ht k false
  · simpa using smaller_spec t ht k false
  · simpa using bigger_spec t ht k true
  · simpa using smaller_spec t ht k true

/-- Witness for C6 at the specification's own example: the ordered tree
with keys 10, 20, ..., 80 and the boundary key 30 (`bigger 30 = 40`,
`smaller 30 = 20`). -/
theorem c6_nearest_key_queries_witness :
    Ordered c6tree ∧
    (List.Sorted (· < ·) (keys c6tree) ∧
    (bigger c6tree 30 false).map Prod.fst = ((keys c6tree).filter (fun x => decide (30 < x))).head? ∧
    (smaller c6tree 30 false).map Prod.fst = ((keys c6tree).filter (fun x => decide (x < 30))).getLast? ∧
    (bigger c6tree 30 true).map Prod.fst = ((keys c6tree).filter (fun x => decide (30 ≤ x))).head? ∧
    (smaller c6tree 30 true).map Prod.fst = ((keys c6tree).filter (fun x => decide (x ≤ 30))).getLast?) :=
  ⟨by decide, c6_nearest_key_queries c6tree (by decide) 30⟩


/-- C8: on a tree with zeroed statistics, `n` puts of pairwise-distinct
absent keys leave `Stats().Put.New = n` and `Stats().Put.Update = 0`; and
a put of an already-present key increments the update counter and leaves
the new counter alone. -/
theorem c8_put_statistics [LinearOrder K] (m : TreeMem K V) (p : PerfStats)
    (kvs : List (K × V))
    (hord : Ordered m.root) (hreset : m.stats = StatsC.zero)
    (hnodup : (kvs.map Prod.fst).Nodup)
    (hfresh : ∀ k ∈ kvs.map Prod.fst, getNode m.root k = none) :
    ((statsFn (kvs.foldl (fun st kv => putM st.1 kv.1 kv.2 st.2) (m, p)).1.stats
       (kvs.foldl (fun st kv => putM st.1 kv.1 kv.2 st.2) (m, p)).2).putNew = kvs.length ∧
     (statsFn (kvs.foldl (fun st kv => putM st.1 kv.1 kv.2 st.2) (m, p)).1.stats
       (kvs.foldl (fun st kv => putM st.1 kv.1 kv.2 st.2) (m, p)).2).putUpdate = 0) ∧
    ∀ (m2 : TreeMem K V) (p2 : PerfStats) (k : K) (v : V),
      (getNode m2.root k).isSome = true →
      (putM m2 k v p2).1.stats.putUpdate = m2.stats.putUpdate + 1 ∧
      (putM m2 k v p2).1.stats.putNew = m2.stats.putNew := by
  refine ⟨c8_general m p kvs hord hreset hnodup hfresh, ?_⟩
  intro m2 p2 k v hsome
  obtain ⟨-, h2, -⟩ := putM_spec m2 k v p2
  rw [hsome] at h2
  simp only [if_true] at h2
  exact ⟨by rw [h2], by rw [h2]⟩

/-- Witness for C8 at a concrete input: three distinct fresh keys put
into a fresh tree. -/
theorem c8_put_statistics_witness :
    (Ordered (emptyTree : TreeMem Nat Nat).root ∧
     (emptyTree : TreeMem Nat Nat).stats = StatsC.zero ∧
     (([((10 : Nat), (1 : Nat)), (20, 2), (30, 3)]).map Prod.fst).Nodup ∧
     (∀ k ∈ ([((10 : Nat), (1 : Nat)), (20, 2), (30, 3)]).map Prod.fst,
        getNode (emptyTree : TreeMem Nat Nat).root k = none)) ∧
    ((statsFn (([((10 : Nat), (1 : Nat)), (20, 2), (30, 3)]).foldl
         (fun st kv => putM st.1 kv.1 kv.2 st.2) (emptyTree, PerfStats.zero)).1.stats
       (([((10 : Nat), (1 : Nat)), (20, 2), (30, 3)]).foldl
         (fun st kv => putM st.1 kv.1 kv.2 st.2) (emptyTree, PerfStats.zero)).2).putNew =
         ([((10 : Nat), (1 : Nat)), (20, 2), (30, 3)]).length ∧
     (statsFn (([((10 : Nat), (1 : Nat)), (20, 2), (30, 3)]).foldl
         (fun st kv => putM st.1 kv.1 kv.2 st.2) (emptyTree, PerfStats.zero)).1.stats
       (([((10 : Nat), (1 : Nat)), (20, 2), (30, 3)]).foldl
         (fun st kv => putM st.1 kv.1 kv.2 st.2) (emptyTree, PerfStats.zero)).2).putUpdate = 0) ∧
    (∀ (m2 : TreeMem Nat Nat) (p2 : PerfStats) (k : Nat) (v : Nat),
      (getNode m2.root k).isSome = true →
      (putM m2 k v p2).1.stats.putUpdate = m2.stats.putUpdate + 1 ∧
      (putM m2 k v p2).1.stats.putNew = m2.stats.putNew) :=
  ⟨⟨by decide, by decide, by decide, by decide⟩,
   c8_put_statistics emptyTree PerfStats.zero _ (by decide) (by decide) (by decide) (by decide)⟩

/-- C9 counterexample: the rotation counters are NOT owned per container
instance.  Tree A is `emptyTree` and is never mutated; tree B receives
two puts (`c9After`); afterwards A's `Stats()` reports a different
rotate-left counter than before, refuting the claim at this input. -/
theorem c9_per_instance_counters_counterexample :
    statsFn (emptyTree : TreeMem Nat Nat).stats c9After.2 ≠
      statsFn (emptyTree : TreeMem Nat Nat).stats PerfStats.zero := by
  decide

/-- C9 amended: the rotation and flip performance counters are
process-global (the single shared `pstats`), not per-instance: every
tree's `Stats()` copies the shared counters verbatim, and a `Put` on one
tree that rotates is visible through any other tree's `Stats()` (here:
A's reported rotate-left count goes from 0 to 1 although only B was
mutated). -/
theorem c9_perf_counters_are_global :
    (∀ (s : StatsC) (g : PerfStats),
      (statsFn s g).perfFlip = g.flip ∧ (statsFn s g).perfRotateLeft = g.rotateLeft ∧
      (statsFn s g).perfRotateRight = g.rotateRight ∧
      (statsFn s g).perfRotateSum = g.rotateLeft + g.rotateRight) ∧
    (statsFn (emptyTree : TreeMem Nat Nat).stats PerfStats.zero).perfRotateLeft = 0 ∧
    (statsFn (emptyTree : TreeMem Nat Nat).stats c9After.2).perfRotateLeft = 1 :=
  ⟨fun s g => ⟨rfl, rfl, rfl, rfl⟩, by decide, by decide⟩

end GoMapLLRB
